import Mathlib

/-!
Whitespace tokenizer (`src/tokenizer.c`)

Shallow embedding of the tokenizer and proofs about it.

Memory model.  A `char` is its code (`Nat`): space is 32, tab is 9 and the
terminator `'\0'` is 0.  A string buffer is the list `s` of the bytes that
precede its terminating NUL, so reading at an offset `p` yields
`s.getD p 0`: the byte itself, or the terminator from offset `s.length` on.
A list that holds a 0 is a buffer whose string ends at that 0; the strings
proper are the lists without 0.
A `char *` into the buffer is `Option Nat`: `none` is `NULL`, `some p` is
the address `s + p`.  A `char *` argument naming a whole string is
`Option (List Nat)`.

The counter of `count_words_loop` is the number of tokens found, a
mathematical integer; the 32-bit `int count` of the program is modelled by
`count_words_loop_int`, which agrees with it below `2^31` tokens.  The
`short` length handed to `copy_str` is reduced to 16 bits explicitly
(`toShort`).
-/

namespace Tokenizer

/-! ## The program -/

/-- Function `is_valid_character`: a character of a token is anything but space, tab
and the terminator. -/
def is_valid_character (c : Nat) : Bool :=
  c != 32 && c != 9 && c != 0

/-- Function `space_char`: space or tab. -/
def space_char (c : Nat) : Bool :=
  c == 32 || c == 9

/-- Function `non_space_char`: neither space, nor tab, nor the terminator. -/
def non_space_char (c : Nat) : Bool :=
  c != 32 && c != 9 && c != 0

/-- The loop `while (*s != '\0' && !is_valid_character(*s)) s++;` of
`find_word_start`.  The first argument is the memory from `s` on (its head
is `*s`, the empty list means that `*s` is the terminator); the second is
the offset of `s` in the buffer.  The result is the offset where the loop
stops. -/
def find_word_start_loop : List Nat → Nat → Nat
  | [], p => p
  | c :: rest, p =>
    if c != 0 && !is_valid_character c then find_word_start_loop rest (p + 1) else p

/-- Function `find_word_start`: skip spaces and tabs; `NULL` for a `NULL` argument
and when the terminator is reached. -/
def find_word_start (s : List Nat) (p : Option Nat) : Option Nat :=
  match p with
  | none => none
  | some p =>
    let q := find_word_start_loop (s.drop p) p
    if s.getD q 0 == 0 then none else some q

/-- The loop `while (*s != '\0' && is_valid_character(*s)) s++;` of
`find_word_terminator`, with the arguments of `find_word_start_loop`. -/
def find_word_terminator_loop : List Nat → Nat → Nat
  | [], p => p
  | c :: rest, p =>
    if c != 0 && is_valid_character c then find_word_terminator_loop rest (p + 1) else p

/-- Function `find_word_terminator`: the first position at or after `p` that holds a
space, a tab or the terminator; `NULL` for a `NULL` argument. -/
def find_word_terminator (s : List Nat) (p : Option Nat) : Option Nat :=
  match p with
  | none => none
  | some p => some (find_word_terminator_loop (s.drop p) p)

/-- The `while (1)` loop of `count_words`, run for at most `fuel`
iterations: `none` when the fuel runs out before the `break`.  The counter
is the number of tokens found, as a mathematical integer; what the `int` of
the program holds is this number reduced to 32 bits, see
`count_words_loop_int`. -/
def count_words_loop (s : List Nat) : Nat → Option Nat → Int → Option Int
  | 0, _, _ => none
  | fuel + 1, p, count =>
    match find_word_start s p with
    | none => some count
    | some start =>
      count_words_loop s fuel (find_word_terminator s (some start)) (count + 1)

/-- Function `count_words`: 0 for `NULL`, else the number of iterations of the scan
loop that find a token.  The loop is given `length + 1` iterations, which
is enough (`count_words_loop_eq`); `none` would mean that it is not. -/
def count_words (s : Option (List Nat)) : Option Int :=
  match s with
  | none => some 0
  | some s => count_words_loop s (s.length + 1) (some 0) 0

/-- Conversion of a pointer difference to `short`: reduction to a signed
16-bit value. -/
def toShort (x : Int) : Int :=
  (x + 32768) % 65536 - 32768

/-- The difference `end - start` of two pointers into the buffer (0 when
both are `NULL`). -/
def ptr_diff (e start : Option Nat) : Int :=
  match e, start with
  | some e, some st => (e : Int) - (st : Int)
  | _, _ => 0

/-- The byte `inStr[i]`. -/
def load (s : List Nat) (inStr : Option Nat) (i : Nat) : Nat :=
  match inStr with
  | some b => s.getD (b + i) 0
  | none => 0

/-- Function `copy_str` on lists: `ok` tells whether the allocator has
memory for the request `malloc(len + 1)`.  The result is `NULL` (`none`)
when it has not; otherwise it is the string `out[0 .. len)` filled by the
copy loop and terminated at `out[len]`.  A call with `len < -1` asks for
`(size_t)(len + 1)` bytes, more than `SIZE_MAX - 32767`, and gets `NULL`.
A call with `len = -1` whose `malloc(0)` is granted is undefined in C: it
stores `out[-1]` and returns the block unwritten.  A list cannot say so:
the value `none` given here for that call is a placeholder, the heap
function `copy_str_st` gives `fault` for it, and what is proved of such a
call is proved on the heap (`tokenize_st_fault`). -/
def copy_str (ok : Bool) (s : List Nat) (inStr : Option Nat) (len : Int) :
    Option (List Nat) :=
  if ok && decide (0 ≤ len) then
    some ((List.range len.toNat).map (fun i => load s inStr i))
  else none

/-- The loop `while (idx < n)` of `tokenize`; the first numeric argument is
the number `n - idx` of iterations left.  `alloc k` tells whether the
`k`-th `malloc` of the call returns a block (the array is number 0, the
token stored at `idx` is number `idx + 1`).  The result lists the entries
`tokens[idx], ..., tokens[n - 1]`. -/
def tokenize_loop (alloc : Nat → Bool) (s : List Nat) :
    Nat → Nat → Option Nat → List (Option (List Nat))
  | 0, _, _ => []
  | k + 1, idx, p =>
    let start := find_word_start s p
    let e := find_word_terminator s start
    let len := toShort (ptr_diff e start)
    copy_str (alloc (idx + 1)) s start len :: tokenize_loop alloc s k (idx + 1) e

/-- Function `tokenize`.  The outer `Option` is `none` only if the counting loop
runs out of fuel (it does not); the inner one is the returned `char **`:
`none` for `NULL`, else the `n + 1` entries of the array, the last of
which is the `NULL` sentinel `tokens[n]`. -/
def tokenize (alloc : Nat → Bool) (str : Option (List Nat)) :
    Option (Option (List (Option (List Nat)))) :=
  match count_words str with
  | none => none
  | some n =>
    if alloc 0 then
      some (some (tokenize_loop alloc (str.getD []) n.toNat 0 (str.map (fun _ => 0)) ++ [none]))
    else some none

/-- Function `token_start`: wrapper of `find_word_start`. -/
def token_start (s : List Nat) (str : Option Nat) : Option Nat :=
  find_word_start s str

/-- Function `token_terminator`: wrapper of `find_word_terminator`. -/
def token_terminator (s : List Nat) (token : Option Nat) : Option Nat :=
  find_word_terminator s token

/-- Function `count_tokens`: wrapper of `count_words`. -/
def count_tokens (str : Option (List Nat)) : Option Int :=
  count_words str

/-- Reduction of an integer to the 32-bit `int` (two's complement): what
`count++` leaves in `count` when the sum is out of range. -/
def toInt32 (x : Int) : Int :=
  (x + 2147483648) % 4294967296 - 2147483648

/-- The `while (1)` loop of `count_words` with the counter held in the
32-bit `int count`, run for at most `fuel` iterations. -/
def count_words_loop_int (s : List Nat) : Nat → Option Nat → Int → Option Int
  | 0, _, _ => none
  | fuel + 1, p, count =>
    match find_word_start s p with
    | none => some count
    | some start =>
      count_words_loop_int s fuel (find_word_terminator s (some start)) (toInt32 (count + 1))

/-- Function `count_words` with its `int` result: 0 for `NULL`, else what the
loop leaves in `count`. -/
def count_words_int (s : Option (List Nat)) : Option Int :=
  match s with
  | none => some 0
  | some s => count_words_loop_int s (s.length + 1) (some 0) 0

/-- Function `count_tokens` with its `int` result: wrapper of `count_words`. -/
def count_tokens_int (str : Option (List Nat)) : Option Int :=
  count_words_int str

/-- The strings that a reader of the array sees: the loop
`for (i = 0; tokens[i] != NULL; i++)` of `print_tokens` and `free_tokens`
visits the entries before the first `NULL`. -/
def token_seq : List (Option (List Nat)) → List (List Nat)
  | some t :: rest => t :: token_seq rest
  | _ => []

/-- Every `malloc` returns a block. -/
def alloc_ok : Nat → Bool := fun _ => true

/-- The pointers of the loop `while (idx < n)` of `tokenize`: for each of the
iterations left, the value of `p` on entry and the values given to `start`
and `end`. -/
def tokenize_trace (s : List Nat) : Nat → Option Nat → List (Option Nat × Option Nat × Option Nat)
  | 0, _ => []
  | k + 1, p =>
    let start := find_word_start s p
    let e := find_word_terminator s start
    (p, start, e) :: tokenize_trace s k e

/-- A block of the heap: bytes, pointer cells (`NULL` or the index of the
block addressed), or a block that `free` has released. -/
inductive Block
  | bytes (data : List Nat)
  | cells (data : List (Option Nat))
  | released
  deriving DecidableEq

/-- Outcome of a run over the heap: a result, an undefined access (to a
released or missing block, out of bounds, or a second `free`), or a loop
that has run out of fuel. -/
inductive Run (α : Type)
  | done (a : α)
  | fault
  | timeout
  deriving DecidableEq

/-- Sequencing of runs. -/
def Run.bind {α β : Type} (r : Run α) (f : α → Run β) : Run β :=
  match r with
  | Run.done a => f a
  | Run.fault => Run.fault
  | Run.timeout => Run.timeout

/-- The bytes of block `b`, as the scanning functions read them. -/
def string_of (h : List Block) (b : Nat) : List Nat :=
  match h[b]? with
  | some (Block.bytes d) => d
  | _ => []

/-- The store `b[off] = v` of a `char`. -/
def store_byte (h : List Block) (b off v : Nat) : Run (List Block) :=
  match h[b]? with
  | some (Block.bytes d) =>
    if off < d.length then Run.done (h.set b (Block.bytes (d.set off v))) else Run.fault
  | _ => Run.fault

/-- The store `b[off] = v` of a `char *`. -/
def store_cell (h : List Block) (b off : Nat) (v : Option Nat) : Run (List Block) :=
  match h[b]? with
  | some (Block.cells d) =>
    if off < d.length then Run.done (h.set b (Block.cells (d.set off v))) else Run.fault
  | _ => Run.fault

/-- The load of the `char *` at `b[off]`. -/
def load_cell (h : List Block) (b off : Nat) : Run (Option Nat) :=
  match h[b]? with
  | some (Block.cells d) =>
    match d[off]? with
    | some v => Run.done v
    | none => Run.fault
  | _ => Run.fault

/-- The call `free(b)` for a non-`NULL` pointer: undefined for a block that is
released already and for what is no block. -/
def free (h : List Block) (b : Nat) : Run (List Block) :=
  match h[b]? with
  | none => Run.fault
  | some Block.released => Run.fault
  | some _ => Run.done (h.set b Block.released)

/-- Function `find_word_start` on the heap: it makes no store. -/
def find_word_start_st (h : List Block) (b : Nat) (p : Option Nat) :
    List Block × Option Nat :=
  (h, find_word_start (string_of h b) p)

/-- Function `find_word_terminator` on the heap: it makes no store. -/
def find_word_terminator_st (h : List Block) (b : Nat) (p : Option Nat) :
    List Block × Option Nat :=
  (h, find_word_terminator (string_of h b) p)

/-- The loop of `count_words` on the heap; the string is in block `b`. -/
def count_words_loop_st (b : Nat) : Nat → List Block → Option Nat → Int → Run (List Block × Int)
  | 0, _, _, _ => Run.timeout
  | fuel + 1, h, p, count =>
    let r1 := find_word_start_st h b p
    match r1.2 with
    | none => Run.done (r1.1, count)
    | some start =>
      let r2 := find_word_terminator_st r1.1 b (some start)
      count_words_loop_st b fuel r2.1 r2.2 (count + 1)

/-- Function `count_words` on the heap: `str` is `NULL` or the block of the
string. -/
def count_words_st (h : List Block) (str : Option Nat) : Run (List Block × Int) :=
  match str with
  | none => Run.done (h, 0)
  | some b => count_words_loop_st b ((string_of h b).length + 1) h (some 0) 0

/-- Function `count_tokens` on the heap. -/
def count_tokens_st (h : List Block) (str : Option Nat) : Run (List Block × Int) :=
  count_words_st h str

/-- The loop `for (i = 0; i < len; i++) out[i] = inStr[i];` of `copy_str`,
with the number of iterations left; `inStr` points into block `inb`. -/
def copy_str_loop_st (inb : Nat) (inStr : Option Nat) (out : Nat) :
    Nat → Nat → List Block → Run (List Block)
  | 0, _, h => Run.done h
  | k + 1, i, h =>
    (store_byte h out i (load (string_of h inb) inStr i)).bind fun h1 =>
      copy_str_loop_st inb inStr out k (i + 1) h1

/-- Function `copy_str` on the heap.  The request is for `len + 1` bytes: a
negative one, which is `SIZE_MAX - 32766` or more as a `size_t`, gets
`NULL`, as does any request when `ok` is false; otherwise the block is new,
at the end of the heap.  The final store `out[len] = 0` is undefined when
`len = -1`. -/
def copy_str_st (ok : Bool) (h : List Block) (inb : Nat) (inStr : Option Nat) (len : Int) :
    Run (List Block × Option Nat) :=
  if ok && decide (0 ≤ len + 1) then
    (copy_str_loop_st inb inStr h.length len.toNat 0
        (h ++ [Block.bytes (List.replicate (len + 1).toNat 0)])).bind fun h2 =>
      if 0 ≤ len then
        (store_byte h2 h.length len.toNat 0).bind fun h3 => Run.done (h3, some h.length)
      else Run.fault
  else Run.done (h, none)

/-- The loop `while (idx < n)` of `tokenize` on the heap; `tokens` is the
block of the array, `inb` the block of the string. -/
def tokenize_loop_st (alloc : Nat → Bool) (inb tokens : Nat) :
    Nat → Nat → Option Nat → List Block → Run (List Block)
  | 0, _, _, h => Run.done h
  | k + 1, idx, p, h =>
    let start := find_word_start (string_of h inb) p
    let e := find_word_terminator (string_of h inb) start
    let len := toShort (ptr_diff e start)
    (copy_str_st (alloc (idx + 1)) h inb start len).bind fun r =>
      (store_cell r.1 tokens idx r.2).bind fun h2 =>
        tokenize_loop_st alloc inb tokens k (idx + 1) e h2

/-- Function `tokenize` on the heap: the result is the heap left and the
pointer returned, `NULL` or the block of the array. -/
def tokenize_st (alloc : Nat → Bool) (h : List Block) (str : Option Nat) :
    Run (List Block × Option Nat) :=
  (count_words_st h str).bind fun r =>
    if alloc 0 then
      (tokenize_loop_st alloc (str.getD 0) r.1.length r.2.toNat 0 (str.map (fun _ => 0))
          (r.1 ++ [Block.cells (List.replicate (r.2.toNat + 1) none)])).bind fun h2 =>
        (store_cell h2 r.1.length r.2.toNat none).bind fun h3 =>
          Run.done (h3, some r.1.length)
    else Run.done (r.1, none)

/-- The loop `for (i = 0; tokens[i] != NULL; i++) free(tokens[i]);` of
`free_tokens`, run for at most `fuel` iterations. -/
def free_tokens_loop (tokens : Nat) : Nat → Nat → List Block → Run (List Block)
  | 0, _, _ => Run.timeout
  | fuel + 1, i, h =>
    (load_cell h tokens i).bind fun v =>
      match v with
      | none => Run.done h
      | some b => (free h b).bind fun h1 => free_tokens_loop tokens fuel (i + 1) h1

/-- Number of cells of block `b` (0 when it is no block of cells). -/
def cells_length (h : List Block) (b : Nat) : Nat :=
  match h[b]? with
  | some (Block.cells d) => d.length
  | _ => 0

/-- Function `free_tokens`: nothing for `NULL`; else the loop over the
entries, which has one iteration per cell at most, and `free(tokens)`. -/
def free_tokens (h : List Block) (tokens : Option Nat) : Run (List Block) :=
  match tokens with
  | none => Run.done h
  | some a =>
    (free_tokens_loop a (cells_length h a + 1) 0 h).bind fun h1 => free h1 a

/-- The strings that the array in block `a` gives access to: per cell up to
the sentinel, the bytes of the block addressed up to its terminator. -/
def read_tokens (h : List Block) (a : Nat) : List (List Nat) :=
  match h[a]? with
  | some (Block.cells d) =>
    (d.takeWhile Option.isSome).map fun c =>
      (string_of h (c.getD 0)).takeWhile (fun x => x != 0)
  | _ => []

/-! ## Reference functions used in the proofs -/

/-- The loop condition of `find_word_start`. -/
def skip_cond (c : Nat) : Bool :=
  c != 0 && !is_valid_character c

/-- The loop condition of `find_word_terminator`. -/
def word_cond (c : Nat) : Bool :=
  c != 0 && is_valid_character c

/-- What the loop of `tokenize` leaves on the heap, from the iterations
`tr` of the loop over the string `s`: the cells written and the blocks
added, the first new block being number `nxt`; a fault when a token is
given length `-1` and its block is granted. -/
def place (alloc : Nat → Bool) (s : List Nat) :
    Nat → Nat → List (Option Nat × Option Nat × Option Nat) →
      Run (List (Option Nat) × List Block)
  | _, _, [] => Run.done ([], [])
  | nxt, idx, st :: rest =>
    if alloc (idx + 1) && decide (toShort (ptr_diff st.2.2 st.2.1) = -1) then Run.fault
    else
      match copy_str (alloc (idx + 1)) s st.2.1 (toShort (ptr_diff st.2.2 st.2.1)) with
      | some t =>
        (place alloc s (nxt + 1) (idx + 1) rest).bind fun r =>
          Run.done (some nxt :: r.1, Block.bytes (t ++ [0]) :: r.2)
      | none =>
        (place alloc s nxt (idx + 1) rest).bind fun r => Run.done (none :: r.1, r.2)

/-- A token sequence on the heap: block `a` is an array whose entries up to
the sentinel address the blocks `ids`, which are distinct, are not the array
and are not released; `rest` is what the array holds after the sentinel. -/
def token_array (h : List Block) (a : Nat) (ids : List Nat) (rest : List (Option Nat)) : Prop :=
  h[a]? = some (Block.cells (ids.map some ++ none :: rest)) ∧ ids.Nodup ∧ a ∉ ids ∧
    ∀ i ∈ ids, ∃ blk, h[i]? = some blk ∧ blk ≠ Block.released

/-- The heap with the blocks `ids` released. -/
def release_all (h : List Block) (ids : List Nat) : List Block :=
  ids.foldl (fun h1 b => h1.set b Block.released) h

/-- A heap that holds the string `"hi yo"` in block 0. -/
def sample_heap : List Block :=
  [Block.bytes [104, 105, 32, 121, 111, 0]]

/-- The string of `n` words `a`, each followed by a space. -/
def words : Nat → List Nat
  | 0 => []
  | n + 1 => 97 :: 32 :: words n

/-- Close the run collected so far: an empty run is no token. -/
def flush : List Nat → List (List Nat)
  | [] => []
  | c :: cs => [c :: cs]

/-- One left-to-right pass over the memory `l` with the run `cur` open:
the runs of token characters met before the first NUL. -/
def scan : List Nat → List Nat → List (List Nat)
  | [], cur => flush cur
  | c :: cs, cur =>
    if c = 0 then flush cur
    else if c = 32 ∨ c = 9 then flush cur ++ scan cs []
    else scan cs (cur ++ [c])

/-- The runs of token characters of the string that starts at `l`. -/
def runs (l : List Nat) : List (List Nat) :=
  scan l []

/-- What `tokenize` stores for a run: its first `toShort length` bytes, or
`NULL`. -/
def store (ok : Bool) (run : List Nat) : Option (List Nat) :=
  if ok && decide (0 ≤ toShort run.length) then
    some (run.take (toShort run.length).toNat)
  else none

/-- The array entries for a list of runs, the first stored at `idx`. -/
def entries (alloc : Nat → Bool) : Nat → List (List Nat) → List (Option (List Nat))
  | _, [] => []
  | idx, r :: rs => store (alloc (idx + 1)) r :: entries alloc (idx + 1) rs

/-- Number of positions that start a run: `s[i]` is neither space nor tab
and `i = 0` or `s[i-1]` is a space or a tab. -/
def run_starts (s : List Nat) : Nat :=
  ((List.range s.length).filter (fun i =>
    decide (s.getD i 0 ≠ 32 ∧ s.getD i 0 ≠ 9 ∧
      (i = 0 ∨ s.getD (i - 1) 0 = 32 ∨ s.getD (i - 1) 0 = 9)))).length

/-- Run starts of `l` counted from the left; `b` tells whether the position
before `l` is a boundary (the start of the string or a delimiter). -/
def starts_from : Bool → List Nat → Nat
  | _, [] => 0
  | b, c :: cs =>
    (if (c ≠ 32 ∧ c ≠ 9) ∧ b = true then 1 else 0)
      + starts_from (decide (c = 32 ∨ c = 9)) cs

/-- The count of `run_starts`, with the status `b` of position 0 given. -/
def starts_count (b : Bool) (l : List Nat) : Nat :=
  ((List.range l.length).filter (fun i =>
    decide (l.getD i 0 ≠ 32 ∧ l.getD i 0 ≠ 9 ∧
      (if i = 0 then b = true else (l.getD (i - 1) 0 = 32 ∨ l.getD (i - 1) 0 = 9))))).length

/-- Input with no token: `NULL`, or a string of spaces and tabs only (the
empty string included). -/
def blank_input : Option (List Nat) → Prop
  | none => True
  | some s => ∀ c ∈ s, c = 32 ∨ c = 9

/-! ## The scanning loops -/

theorem skip_cond_iff (c : Nat) : skip_cond c = true ↔ c = 32 ∨ c = 9 := by
  unfold skip_cond is_valid_character
  by_cases h1 : c = 32
  · subst h1; decide
  · by_cases h2 : c = 9
    · subst h2; decide
    · by_cases h3 : c = 0
      · subst h3; decide
      · simp [h1, h2, h3]

theorem word_cond_iff (c : Nat) : word_cond c = true ↔ c ≠ 32 ∧ c ≠ 9 ∧ c ≠ 0 := by
  unfold word_cond is_valid_character
  by_cases h1 : c = 32
  · subst h1; decide
  · by_cases h2 : c = 9
    · subst h2; decide
    · by_cases h3 : c = 0
      · subst h3; decide
      · simp [h1, h2, h3]

theorem find_word_start_loop_eq (l : List Nat) (p : Nat) :
    find_word_start_loop l p = p + (l.takeWhile skip_cond).length := by
  induction l generalizing p with
  | nil => simp [find_word_start_loop]
  | cons c rest ih =>
    by_cases h : skip_cond c = true
    · have h' : (c != 0 && !is_valid_character c) = true := h
      rw [List.takeWhile_cons_of_pos h]
      simp only [find_word_start_loop, h', if_true, List.length_cons, ih]
      omega
    · have h' : ¬ (c != 0 && !is_valid_character c) = true := h
      rw [List.takeWhile_cons_of_neg h]
      simp [find_word_start_loop, h']

theorem find_word_terminator_loop_eq (l : List Nat) (p : Nat) :
    find_word_terminator_loop l p = p + (l.takeWhile word_cond).length := by
  induction l generalizing p with
  | nil => simp [find_word_terminator_loop]
  | cons c rest ih =>
    by_cases h : word_cond c = true
    · have h' : (c != 0 && is_valid_character c) = true := h
      rw [List.takeWhile_cons_of_pos h]
      simp only [find_word_terminator_loop, h', if_true, List.length_cons, ih]
      omega
    · have h' : ¬ (c != 0 && is_valid_character c) = true := h
      rw [List.takeWhile_cons_of_neg h]
      simp [find_word_terminator_loop, h']

theorem length_takeWhile_le_length (f : Nat → Bool) (l : List Nat) :
    (l.takeWhile f).length ≤ l.length := by
  induction l with
  | nil => simp
  | cons c rest ih =>
    by_cases h : f c = true
    · rw [List.takeWhile_cons_of_pos h]; simp only [List.length_cons]; omega
    · rw [List.takeWhile_cons_of_neg h]; simp

theorem drop_takeWhile_length (f : Nat → Bool) (l : List Nat) :
    l.drop (l.takeWhile f).length = l.dropWhile f := by
  induction l with
  | nil => simp
  | cons c rest ih =>
    by_cases h : f c = true
    · rw [List.takeWhile_cons_of_pos h, List.dropWhile_cons_of_pos h]
      simpa using ih
    · rw [List.takeWhile_cons_of_neg h, List.dropWhile_cons_of_neg h]
      rfl

theorem take_takeWhile_length (f : Nat → Bool) (l : List Nat) :
    l.take (l.takeWhile f).length = l.takeWhile f := by
  induction l with
  | nil => simp
  | cons c rest ih =>
    by_cases h : f c = true
    · rw [List.takeWhile_cons_of_pos h]
      simpa using ih
    · rw [List.takeWhile_cons_of_neg h]
      rfl

theorem dropWhile_head_false (f : Nat → Bool) (l : List Nat) (c : Nat) (t : List Nat)
    (h : l.dropWhile f = c :: t) : f c = false := by
  induction l with
  | nil => simp at h
  | cons a rest ih =>
    by_cases ha : f a = true
    · rw [List.dropWhile_cons_of_pos ha] at h
      exact ih h
    · rw [List.dropWhile_cons_of_neg ha] at h
      injection h with h1 _
      subst h1
      simpa using ha

theorem getD_eq_headD_drop (s : List Nat) (q : Nat) :
    s.getD q 0 = (s.drop q).headD 0 := by
  induction s generalizing q with
  | nil => simp
  | cons c rest ih =>
    cases q with
    | zero => simp
    | succ q =>
      rw [List.getD_cons_succ, List.drop_succ_cons]
      exact ih q

theorem getD_add_eq_getD_drop (s : List Nat) (q i : Nat) :
    s.getD (q + i) 0 = (s.drop q).getD i 0 := by
  induction s generalizing q with
  | nil => simp
  | cons c rest ih =>
    cases q with
    | zero => simp
    | succ q =>
      have : q + 1 + i = (q + i) + 1 := by omega
      rw [this, List.getD_cons_succ, List.drop_succ_cons]
      exact ih q

theorem map_range_getD (l : List Nat) (n : Nat) (h : n ≤ l.length) :
    (List.range n).map (fun i => l.getD i 0) = l.take n := by
  induction l generalizing n with
  | nil =>
    have : n = 0 := by simpa using h
    subst this; rfl
  | cons c rest ih =>
    cases n with
    | zero => rfl
    | succ n =>
      have hn : n ≤ rest.length := by simpa using h
      rw [List.range_succ_eq_map]
      simp only [List.map_cons, List.map_map, List.take_succ_cons]
      have := ih n hn
      simpa [Function.comp_def] using this

/-! ## The reference scan -/

theorem scan_takeWhile (l cur : List Nat) :
    scan l cur = flush (cur ++ l.takeWhile word_cond) ++ scan (l.dropWhile word_cond) [] := by
  induction l generalizing cur with
  | nil => simp [scan, flush]
  | cons c cs ih =>
    by_cases hv : word_cond c = true
    · have h3 := (word_cond_iff c).1 hv
      have hd : ¬ (c = 32 ∨ c = 9) := by
        rintro (h | h)
        · exact h3.1 h
        · exact h3.2.1 h
      rw [List.takeWhile_cons_of_pos hv, List.dropWhile_cons_of_pos hv]
      simp only [scan, h3.2.2, hd, if_false]
      rw [ih]
      simp
    · rw [List.takeWhile_cons_of_neg hv, List.dropWhile_cons_of_neg hv]
      by_cases h0 : c = 0
      · simp [scan, h0, flush]
      · have hd : c = 32 ∨ c = 9 := by
          by_contra hn
          apply hv
          rw [word_cond_iff]
          exact ⟨fun h => hn (Or.inl h), fun h => hn (Or.inr h), h0⟩
        simp [scan, h0, hd, flush]

theorem scan_dropWhile_skip (l : List Nat) :
    scan l [] = scan (l.dropWhile skip_cond) [] := by
  induction l with
  | nil => simp
  | cons c cs ih =>
    by_cases h : skip_cond c = true
    · rw [List.dropWhile_cons_of_pos h, ← ih]
      have hd := (skip_cond_iff c).1 h
      have h0 : c ≠ 0 := by
        rcases hd with h | h <;> omega
      simp [scan, h0, hd, flush]
    · rw [List.dropWhile_cons_of_neg h]

/-- One iteration of the scan loops, from a position `p` inside the
buffer: either no token is left, or the next token is `[q, e)`. -/
theorem scan_step (s : List Nat) (p : Nat) (hp : p ≤ s.length) :
    (find_word_start s (some p) = none ∧ runs (s.drop p) = []) ∨
    (∃ q e, find_word_start s (some p) = some q ∧
      find_word_terminator s (some q) = some e ∧
      p ≤ q ∧ q < e ∧ e ≤ s.length ∧
      runs (s.drop p) = (s.drop q).take (e - q) :: runs (s.drop e)) := by
  have hq : find_word_start_loop (s.drop p) p
      = p + ((s.drop p).takeWhile skip_cond).length :=
    find_word_start_loop_eq _ _
  generalize hd : ((s.drop p).takeWhile skip_cond).length = d at hq
  have hdrop : s.drop (p + d) = (s.drop p).dropWhile skip_cond := by
    rw [← drop_takeWhile_length, List.drop_drop, hd, Nat.add_comm]
  have hdle : d ≤ (s.drop p).length := by
    rw [← hd]; exact length_takeWhile_le_length _ _
  have hqle : p + d ≤ s.length := by
    rw [List.length_drop] at hdle; omega
  have hruns : runs (s.drop p) = runs (s.drop (p + d)) := by
    rw [hdrop]; exact scan_dropWhile_skip _
  have hfs : find_word_start s (some p)
      = if (s.drop (p + d)).headD 0 == 0 then none else some (p + d) := by
    simp only [find_word_start, hq]
    rw [getD_eq_headD_drop]
  cases hl : s.drop (p + d) with
  | nil =>
    left
    refine ⟨?_, ?_⟩
    · rw [hfs, hl]; rfl
    · rw [hruns, hl]; rfl
  | cons c t =>
    by_cases hc : c = 0
    · left
      refine ⟨?_, ?_⟩
      · rw [hfs, hl, hc]; rfl
      · rw [hruns, hl, hc]; simp [runs, scan, flush]
    · right
      have hskip : skip_cond c = false :=
        dropWhile_head_false _ (s.drop p) c t (by rw [← hdrop, hl])
      have hv : word_cond c = true := by
        rw [word_cond_iff]
        have h1 : ¬ (c = 32 ∨ c = 9) := by
          rw [← skip_cond_iff, hskip]; simp
        exact ⟨fun h => h1 (Or.inl h), fun h => h1 (Or.inr h), hc⟩
      generalize hm : ((s.drop (p + d)).takeWhile word_cond).length = m
      have hm1 : 1 ≤ m := by
        rw [← hm, hl, List.takeWhile_cons_of_pos hv]; simp
      have hmle : m ≤ (s.drop (p + d)).length := by
        rw [← hm]; exact length_takeWhile_le_length _ _
      refine ⟨p + d, p + d + m, ?_, ?_, ?_, ?_, ?_, ?_⟩
      · rw [hfs, hl]; simp [hc]
      · simp only [find_word_terminator, find_word_terminator_loop_eq, hm]
      · omega
      · omega
      · rw [List.length_drop] at hmle; omega
      · rw [hruns]
        unfold runs
        rw [scan_takeWhile (s.drop (p + d)) []]
        have h1 : p + d + m - (p + d) = m := by omega
        have h2 : s.drop (p + d + m) = (s.drop (p + d)).dropWhile word_cond := by
          rw [← drop_takeWhile_length, List.drop_drop, hm, Nat.add_comm]
        rw [h1, h2, ← hm, take_takeWhile_length, List.nil_append]
        have hne : (s.drop (p + d)).takeWhile word_cond ≠ [] := by
          rw [hl, List.takeWhile_cons_of_pos hv]; simp
        cases hx : (s.drop (p + d)).takeWhile word_cond with
        | nil => exact absurd hx hne
        | cons a b => rfl

/-! ## The two passes in terms of the reference scan -/

theorem count_words_loop_eq (s : List Nat) :
    ∀ (fuel p : Nat) (count : Int), p ≤ s.length → s.length - p < fuel →
      count_words_loop s fuel (some p) count
        = some (count + ((runs (s.drop p)).length : Int)) := by
  intro fuel
  induction fuel with
  | zero => intro p count _ hf; omega
  | succ fuel ih =>
    intro p count hp hf
    rcases scan_step s p hp with ⟨h1, h2⟩ | ⟨q, e, h1, h2, hpq, hqe, hel, hr⟩
    · simp [count_words_loop, h1, h2]
    · simp only [count_words_loop, h1, h2]
      rw [ih e (count + 1) hel (by omega), hr]
      simp only [List.length_cons]
      push_cast
      congr 1
      ring

theorem count_words_eq (s : List Nat) :
    count_words (some s) = some ((runs s).length : Int) := by
  show count_words_loop s (s.length + 1) (some 0) 0 = _
  rw [count_words_loop_eq s (s.length + 1) 0 0 (Nat.zero_le _) (by omega)]
  simp

theorem toShort_le (n : Nat) : toShort (n : Int) ≤ (n : Int) := by
  unfold toShort
  omega

theorem copy_str_eq_store (ok : Bool) (s : List Nat) (q e : Nat)
    (hqe : q ≤ e) (hel : e ≤ s.length) :
    copy_str ok s (some q) (toShort (ptr_diff (some e) (some q)))
      = store ok ((s.drop q).take (e - q)) := by
  have hlen : ((s.drop q).take (e - q)).length = e - q := by
    rw [List.length_take, List.length_drop]; omega
  have hdiff : ptr_diff (some e) (some q) = ((e - q : Nat) : Int) := by
    simp only [ptr_diff]; omega
  unfold copy_str store
  rw [hlen, hdiff]
  by_cases hc : (ok && decide (0 ≤ toShort ((e - q : Nat) : Int))) = true
  · rw [if_pos hc, if_pos hc]
    have hle := toShort_le (e - q)
    have hn : (toShort ((e - q : Nat) : Int)).toNat ≤ e - q := by omega
    generalize (toShort ((e - q : Nat) : Int)).toNat = n at hn
    have h1 : (List.range n).map (fun i => load s (some q) i)
        = (List.range n).map (fun i => (s.drop q).getD i 0) := by
      apply List.map_congr_left
      intro i _
      exact getD_add_eq_getD_drop s q i
    rw [h1, map_range_getD _ _ (by rw [List.length_drop]; omega), List.take_take,
      Nat.min_eq_left hn]
  · rw [if_neg hc, if_neg hc]

theorem tokenize_loop_eq (alloc : Nat → Bool) (s : List Nat) :
    ∀ (k idx p : Nat), p ≤ s.length → (runs (s.drop p)).length = k →
      tokenize_loop alloc s k idx (some p) = entries alloc idx (runs (s.drop p)) := by
  intro k
  induction k with
  | zero =>
    intro idx p _ hk
    rw [List.length_eq_zero] at hk
    rw [hk]; rfl
  | succ k ih =>
    intro idx p hp hk
    rcases scan_step s p hp with ⟨_, h2⟩ | ⟨q, e, h1, h2, hpq, hqe, hel, hr⟩
    · rw [h2] at hk; simp at hk
    · rw [hr] at hk ⊢
      simp only [List.length_cons, Nat.add_right_cancel_iff] at hk
      simp only [tokenize_loop, h1, h2, entries]
      rw [copy_str_eq_store _ _ _ _ (Nat.le_of_lt hqe) hel, ih (idx + 1) e hel hk]

theorem tokenize_eq (alloc : Nat → Bool) (s : List Nat) :
    tokenize alloc (some s)
      = some (if alloc 0 then some (entries alloc 0 (runs s) ++ [none]) else none) := by
  unfold tokenize
  rw [count_words_eq]
  simp only [Int.toNat_ofNat, Option.getD_some, Option.map_some']
  have := tokenize_loop_eq alloc s (runs s).length 0 0 (Nat.zero_le _) (by simp)
  simp only [List.drop_zero] at this
  rw [this]
  split <;> rfl

theorem tokenize_null (alloc : Nat → Bool) :
    tokenize alloc none = some (if alloc 0 then some [none] else none) := by
  show (if alloc 0 then _ else _) = _
  split <;> rfl

/-! ## Facts about the reference scan -/

theorem scan_cons (c : Nat) (cs cur : List Nat) :
    scan (c :: cs) cur
      = if c = 0 then flush cur
        else if c = 32 ∨ c = 9 then flush cur ++ scan cs []
        else scan cs (cur ++ [c]) := rfl

theorem scan_word_append (a rest cur : List Nat) (h : ∀ c ∈ a, word_cond c = true) :
    scan (a ++ rest) cur = scan rest (cur ++ a) := by
  induction a generalizing cur with
  | nil => simp
  | cons c cs ih =>
    have h3 := (word_cond_iff c).1 (h c (List.mem_cons_self _ _))
    have hd : ¬ (c = 32 ∨ c = 9) := by
      rintro (h | h)
      · exact h3.1 h
      · exact h3.2.1 h
    rw [List.cons_append, scan_cons]
    simp only [h3.2.2, hd, if_false]
    rw [ih _ (fun x hx => h x (List.mem_cons_of_mem _ hx))]
    simp

theorem scan_delim_cons (d : Nat) (l cur : List Nat) (hd : d = 32 ∨ d = 9) :
    scan (d :: l) cur = flush cur ++ scan l [] := by
  have h0 : d ≠ 0 := by rcases hd with h | h <;> omega
  simp [scan, h0, hd]

theorem scan_delims (ws cur : List Nat) (h : ∀ c ∈ ws, c = 32 ∨ c = 9) :
    scan ws cur = flush cur := by
  induction ws generalizing cur with
  | nil => rfl
  | cons d rest ih =>
    rw [scan_delim_cons d rest cur (h d (List.mem_cons_self _ _)),
      ih [] (fun x hx => h x (List.mem_cons_of_mem _ hx))]
    simp [flush]

theorem scan_delims_append (ws s : List Nat) (h : ∀ c ∈ ws, c = 32 ∨ c = 9) :
    scan (ws ++ s) [] = scan s [] := by
  induction ws with
  | nil => rfl
  | cons d rest ih =>
    rw [List.cons_append, scan_delim_cons d _ [] (h d (List.mem_cons_self _ _)),
      ih (fun x hx => h x (List.mem_cons_of_mem _ hx))]
    rfl

/-- The scan of `a ++ x` depends on `x` only through the scan of `x`. -/
theorem scan_append_congr (a x y : List Nat) (h : ∀ cur, scan x cur = scan y cur) :
    ∀ cur, scan (a ++ x) cur = scan (a ++ y) cur := by
  induction a with
  | nil => exact h
  | cons c cs ih =>
    intro cur
    rw [List.cons_append, List.cons_append, scan_cons, scan_cons, ih [], ih (cur ++ [c])]

theorem scan_append_delims (s ws : List Nat) (h : ∀ c ∈ ws, c = 32 ∨ c = 9) :
    ∀ cur, scan (s ++ ws) cur = scan s cur := by
  intro cur
  have := scan_append_congr s ws [] (fun cur => by
    rw [scan_delims ws cur h]; rfl) cur
  simpa using this

theorem scan_all_word (l : List Nat) :
    ∀ cur, (∀ c ∈ cur, word_cond c = true) →
      ∀ r ∈ scan l cur, ∀ c ∈ r, word_cond c = true := by
  have hflush : ∀ cur : List Nat, (∀ c ∈ cur, word_cond c = true) →
      ∀ r ∈ flush cur, ∀ c ∈ r, word_cond c = true := by
    intro cur hcur r hr
    cases cur with
    | nil => simp [flush] at hr
    | cons a b =>
      simp only [flush, List.mem_singleton] at hr
      rw [hr]; exact hcur
  induction l with
  | nil => intro cur hcur; exact hflush cur hcur
  | cons c cs ih =>
    intro cur hcur r hr
    by_cases h0 : c = 0
    · simp only [scan, h0, if_true] at hr
      exact hflush cur hcur r hr
    · by_cases hd : c = 32 ∨ c = 9
      · simp only [scan, h0, hd, if_true, if_false, List.mem_append] at hr
        rcases hr with hr | hr
        · exact hflush cur hcur r hr
        · exact ih [] (by simp) r hr
      · simp only [scan, h0, hd, if_false] at hr
        refine ih (cur ++ [c]) ?_ r hr
        intro x hx
        rcases List.mem_append.1 hx with hx | hx
        · exact hcur x hx
        · rw [List.mem_singleton] at hx
          rw [hx, word_cond_iff]
          exact ⟨fun h => hd (Or.inl h), fun h => hd (Or.inr h), h0⟩

theorem runs_replicate (n : Nat) (rest : List Nat) :
    runs (List.replicate n 97 ++ rest) = scan rest (List.replicate n 97) := by
  unfold runs
  rw [scan_word_append _ _ _ (by
    intro c hc
    rw [List.eq_of_mem_replicate hc]; decide)]
  rfl

theorem flush_replicate (n : Nat) (hn : 0 < n) :
    flush (List.replicate n 97) = [List.replicate n 97] := by
  cases n with
  | zero => omega
  | succ n => rfl

theorem store_replicate (n : Nat) (k : Int) (hk : toShort (n : Int) = k) :
    store true (List.replicate n 97)
      = if 0 ≤ k then some (List.replicate k.toNat 97) else none := by
  have hle := toShort_le n
  unfold store
  rw [List.length_replicate, hk]
  by_cases h : 0 ≤ k
  · have hm : min k.toNat n = k.toNat := by omega
    simp only [Bool.true_and, decide_eq_true_eq, h, if_true, List.take_replicate, hm]
  · simp [h]

theorem starts_from_cons (b : Bool) (c : Nat) (cs : List Nat) :
    starts_from b (c :: cs)
      = (if (c ≠ 32 ∧ c ≠ 9) ∧ b = true then 1 else 0)
        + starts_from (decide (c = 32 ∨ c = 9)) cs := rfl

theorem scan_length (l : List Nat) (h : ∀ c ∈ l, c ≠ 0) :
    ∀ cur, (scan l cur).length
      = starts_from (decide (cur = [])) l + (if cur = [] then 0 else 1) := by
  have hflush : ∀ cur : List Nat, (flush cur).length = if cur = [] then 0 else 1 := by
    intro cur; cases cur <;> simp [flush]
  induction l with
  | nil => intro cur; simp [scan, starts_from, hflush]
  | cons c cs ih =>
    intro cur
    have h0 : c ≠ 0 := h c (List.mem_cons_self _ _)
    have ih' := ih (fun x hx => h x (List.mem_cons_of_mem _ hx))
    rw [scan_cons, if_neg h0, starts_from_cons]
    by_cases hd : c = 32 ∨ c = 9
    · have hnd : ¬ ((c ≠ 32 ∧ c ≠ 9) ∧ decide (cur = []) = true) := by
        rintro ⟨⟨h1, h2⟩, _⟩; rcases hd with h | h
        · exact h1 h
        · exact h2 h
      have hdec : decide (c = 32 ∨ c = 9) = true := by simp [hd]
      rw [if_pos hd, if_neg hnd, hdec, List.length_append, hflush, ih' []]
      simp
      omega
    · have hdec : decide (c = 32 ∨ c = 9) = false := by simp [hd]
      have hne : cur ++ [c] ≠ [] := by simp
      have hdne : decide (cur ++ [c] = []) = false := by simp
      rw [if_neg hd, hdec, ih' (cur ++ [c]), hdne, if_neg hne]
      have hnd : c ≠ 32 ∧ c ≠ 9 := ⟨fun h => hd (Or.inl h), fun h => hd (Or.inr h)⟩
      by_cases hc : cur = []
      · have : (c ≠ 32 ∧ c ≠ 9) ∧ decide (cur = []) = true := ⟨hnd, by simp [hc]⟩
        rw [if_pos this, if_pos hc]
        omega
      · have : ¬ ((c ≠ 32 ∧ c ≠ 9) ∧ decide (cur = []) = true) := by
          rintro ⟨_, h2⟩; exact hc (by simpa using h2)
        rw [if_neg this, if_neg hc]
        omega

theorem filter_cons_length (P : Nat → Bool) (x : Nat) (xs : List Nat) :
    ((x :: xs).filter P).length = (if P x = true then 1 else 0) + (xs.filter P).length := by
  by_cases h : P x = true
  · rw [List.filter_cons_of_pos h, if_pos h, List.length_cons]; omega
  · rw [List.filter_cons_of_neg h, if_neg h]; omega

theorem starts_count_eq (l : List Nat) : ∀ b, starts_count b l = starts_from b l := by
  induction l with
  | nil => intro b; rfl
  | cons c cs ih =>
    intro b
    have hrest : (List.range cs.length).filter
          ((fun i => decide ((c :: cs).getD i 0 ≠ 32 ∧ (c :: cs).getD i 0 ≠ 9 ∧
            (if i = 0 then b = true
              else ((c :: cs).getD (i - 1) 0 = 32 ∨ (c :: cs).getD (i - 1) 0 = 9)))) ∘ Nat.succ)
        = (List.range cs.length).filter (fun i =>
            decide (cs.getD i 0 ≠ 32 ∧ cs.getD i 0 ≠ 9 ∧
              (if i = 0 then decide (c = 32 ∨ c = 9) = true
                else (cs.getD (i - 1) 0 = 32 ∨ cs.getD (i - 1) 0 = 9)))) := by
      apply List.filter_congr
      intro i _
      cases i with
      | zero => simp
      | succ j => simp
    have hlen : (((List.range cs.length).map Nat.succ).filter
          (fun i => decide ((c :: cs).getD i 0 ≠ 32 ∧ (c :: cs).getD i 0 ≠ 9 ∧
            (if i = 0 then b = true
              else ((c :: cs).getD (i - 1) 0 = 32 ∨ (c :: cs).getD (i - 1) 0 = 9))))).length
        = starts_from (decide (c = 32 ∨ c = 9)) cs := by
      rw [List.filter_map, List.length_map, hrest, ← ih]
      rfl
    unfold starts_count
    rw [List.length_cons, List.range_succ_eq_map, starts_from_cons, filter_cons_length, hlen]
    congr 1
    by_cases hp : (c ≠ 32 ∧ c ≠ 9) ∧ b = true
    · rw [if_pos hp, if_pos]
      simpa using ⟨hp.1.1, hp.1.2, hp.2⟩
    · rw [if_neg hp, if_neg]
      intro h
      apply hp
      have h' : c ≠ 32 ∧ c ≠ 9 ∧ b = true := by simpa using h
      exact ⟨⟨h'.1, h'.2.1⟩, h'.2.2⟩

theorem run_starts_eq (s : List Nat) : run_starts s = starts_from true s := by
  rw [← starts_count_eq]
  unfold run_starts starts_count
  congr 1
  apply List.filter_congr
  intro i _
  by_cases hi : i = 0
  · simp [hi]
  · simp [hi]

theorem runs_length (s : List Nat) (h : ∀ c ∈ s, c ≠ 0) :
    (runs s).length = run_starts s := by
  unfold runs
  rw [scan_length s h [], run_starts_eq]
  simp

theorem runs_eq_of_delims (ws : List Nat) (h : ∀ c ∈ ws, c = 32 ∨ c = 9) : runs ws = [] := by
  unfold runs
  rw [scan_delims ws [] h]; rfl

theorem tokenize_congr (alloc : Nat → Bool) (x y : List Nat) (h : runs x = runs y) :
    tokenize alloc (some x) = tokenize alloc (some y) := by
  rw [tokenize_eq, tokenize_eq, h]

theorem count_tokens_congr (x y : List Nat) (h : runs x = runs y) :
    count_tokens (some x) = count_tokens (some y) := by
  unfold count_tokens
  rw [count_words_eq, count_words_eq, h]

theorem store_take (ok : Bool) (run t : List Nat) (h : store ok run = some t) :
    ∃ k, t = run.take k := by
  unfold store at h
  split at h
  · injection h with h
    exact ⟨_, h.symm⟩
  · simp at h

theorem mem_entries (alloc : Nat → Bool) (rs : List (List Nat)) :
    ∀ idx t, some t ∈ entries alloc idx rs → ∃ r ∈ rs, ∃ k, t = r.take k := by
  induction rs with
  | nil => intro idx t h; simp [entries] at h
  | cons r rest ih =>
    intro idx t h
    simp only [entries, List.mem_cons] at h
    rcases h with h | h
    · obtain ⟨k, hk⟩ := store_take _ _ _ h.symm
      exact ⟨r, List.mem_cons_self _ _, k, hk⟩
    · obtain ⟨r', hr', k, hk⟩ := ih _ _ h
      exact ⟨r', List.mem_cons_of_mem _ hr', k, hk⟩

/-- A leading run of `n` letters `a` whose length reduces to `k ≥ 0` in 16
bits is stored as `k` letters. -/
theorem tokenize_replicate_trunc (n k : Nat) (hk : toShort (n : Int) = (k : Int))
    (rest : List Nat) (rs : List (List Nat)) (hrest : scan rest (List.replicate n 97)
      = List.replicate n 97 :: rs) :
    tokenize alloc_ok (some (List.replicate n 97 ++ rest))
      = some (some (some (List.replicate k 97) :: entries alloc_ok 1 rs ++ [none])) := by
  rw [tokenize_eq, runs_replicate, hrest]
  have hs := store_replicate n (k : Int) hk
  rw [if_pos (Int.natCast_nonneg k), Int.toNat_ofNat] at hs
  simp only [entries, alloc_ok, if_true, hs, List.cons_append]

/-- A string of `n > 0` letters `a` whose length reduces to a negative
16-bit value is stored as `NULL`. -/
theorem tokenize_replicate_null (n : Nat) (hn : 0 < n) (hk : toShort (n : Int) < 0) :
    tokenize alloc_ok (some (List.replicate n 97)) = some (some [none, none]) := by
  have h := tokenize_eq alloc_ok (List.replicate n 97)
  have hr : runs (List.replicate n 97) = [List.replicate n 97] := by
    have := runs_replicate n []
    rw [List.append_nil] at this
    rw [this]
    exact flush_replicate n hn
  have hs := store_replicate n (toShort (n : Int)) rfl
  rw [if_neg (by omega)] at hs
  rw [h, hr]
  simp only [entries, alloc_ok, if_true, hs, List.cons_append, List.nil_append]

theorem count_tokens_replicate (n : Nat) (hn : 0 < n) :
    count_tokens (some (List.replicate n 97)) = some 1 := by
  unfold count_tokens
  rw [count_words_eq]
  have := runs_replicate n []
  rw [List.append_nil] at this
  rw [this]
  show some (((flush (List.replicate n 97)).length : Nat) : Int) = some 1
  rw [flush_replicate n hn]
  rfl

theorem store_short (run : List Nat) (h : run.length ≤ 32767) :
    store true run = some run := by
  have hs : toShort (run.length : Int) = (run.length : Int) := by
    unfold toShort; omega
  unfold store
  rw [hs, if_pos (by simp), Int.toNat_ofNat, List.take_length]

theorem entries_short (rs : List (List Nat)) (h : ∀ r ∈ rs, r.length ≤ 32767) :
    ∀ idx, entries alloc_ok idx rs = rs.map some := by
  induction rs with
  | nil => intro idx; rfl
  | cons r rest ih =>
    intro idx
    simp only [entries, List.map_cons]
    rw [ih (fun x hx => h x (List.mem_cons_of_mem _ hx))]
    show store true r :: _ = _
    rw [store_short r (h r (List.mem_cons_self _ _))]

/-- When no run is longer than 32767 characters and every `malloc`
succeeds, the array holds the runs of the reference scan, whole and in
order, followed by the sentinel. -/
theorem tokenize_short_runs (s : List Nat) (h : ∀ r ∈ runs s, r.length ≤ 32767) :
    tokenize alloc_ok (some s) = some (some ((runs s).map some ++ [none])) := by
  rw [tokenize_eq, entries_short (runs s) h 0]
  rfl

/-! ## The claims -/

/-- C1 (fails on the code).  A string of 65541 letters `a` is one run of
65541 token characters, but `tokenize` returns a 5-letter token for it:
`end - start = 65541` becomes `5` when converted to `short`. -/
theorem tokenize_truncates_long_run :
    tokenize alloc_ok (some (List.replicate 65541 97))
        = some (some [some (List.replicate 5 97), none]) ∧
      List.replicate 5 97 ≠ List.replicate 65541 97 := by
  refine ⟨?_, ?_⟩
  · have h := tokenize_replicate_trunc 65541 5 (by decide) [] []
      (flush_replicate 65541 (by decide))
    rw [List.append_nil] at h
    exact h
  · intro h
    have := congrArg List.length h
    rw [List.length_replicate, List.length_replicate] at this
    omega

/-- The number of tokens that the loop of `count_words` finds in a string
without `NUL` inside (the counter taken as a mathematical integer) is the
number of positions that start a run of non-delimiters (`run_starts`). -/
theorem count_tokens_eq_run_starts (s : List Nat) (h : ∀ c ∈ s, c ≠ 0) :
    count_tokens (some s) = some (run_starts s : Int) ∧
      count_words (some s) = count_tokens (some s) ∧
      ∀ n, count_tokens (some s) = some n → 0 ≤ n := by
  have hc : count_tokens (some s) = some (run_starts s : Int) := by
    unfold count_tokens
    rw [count_words_eq, runs_length s h]
  refine ⟨hc, rfl, ?_⟩
  intro n hn
  rw [hc] at hn
  injection hn with hn
  rw [← hn]
  exact Int.natCast_nonneg _

theorem count_tokens_eq_run_starts_witness :
    (∀ c ∈ [32, 32, 104, 105, 9, 9, 121, 111, 117, 32], c ≠ 0) ∧
      count_tokens (some [32, 32, 104, 105, 9, 9, 121, 111, 117, 32])
        = some (run_starts [32, 32, 104, 105, 9, 9, 121, 111, 117, 32] : Int) ∧
      count_words (some [32, 32, 104, 105, 9, 9, 121, 111, 117, 32])
        = count_tokens (some [32, 32, 104, 105, 9, 9, 121, 111, 117, 32]) ∧
      ∀ n, count_tokens (some [32, 32, 104, 105, 9, 9, 121, 111, 117, 32]) = some n → 0 ≤ n :=
  ⟨by decide, count_tokens_eq_run_starts [32, 32, 104, 105, 9, 9, 121, 111, 117, 32] (by decide)⟩

/-- C3 (fails on the code).  For a string of 32768 letters `a`,
`count_tokens` is 1 but the array returned by `tokenize` has no entry
before its first `NULL`: the length 32768 becomes `-32768` as a `short` and
`copy_str` returns `NULL` for the only token. -/
theorem sequence_shorter_than_count :
    count_tokens (some (List.replicate 32768 97)) = some 1 ∧
      tokenize alloc_ok (some (List.replicate 32768 97)) = some (some [none, none]) ∧
      (token_seq [none, none]).length = 0 :=
  ⟨count_tokens_replicate 32768 (by decide),
    tokenize_replicate_null 32768 (by decide) (by decide), rfl⟩

/-- C4.  For a `NULL` input, the empty string and a string of spaces and
tabs only, `count_tokens` is 0 and, when the array is allocated, `tokenize`
returns the array whose first entry is the `NULL` sentinel. -/
theorem blank_input_gives_no_token (str : Option (List Nat)) (h : blank_input str)
    (alloc : Nat → Bool) (h0 : alloc 0 = true) :
    count_tokens str = some 0 ∧ tokenize alloc str = some (some [none]) := by
  cases str with
  | none =>
    refine ⟨rfl, ?_⟩
    rw [tokenize_null, if_pos h0]
  | some s =>
    have hr : runs s = [] := runs_eq_of_delims s h
    refine ⟨?_, ?_⟩
    · unfold count_tokens
      rw [count_words_eq, hr]; rfl
    · rw [tokenize_eq, if_pos h0, hr]; rfl

theorem blank_input_gives_no_token_witness :
    (blank_input (some [32, 32, 32, 9, 32, 32]) ∧ alloc_ok 0 = true ∧
      count_tokens (some [32, 32, 32, 9, 32, 32]) = some 0 ∧
      tokenize alloc_ok (some [32, 32, 32, 9, 32, 32]) = some (some [none])) ∧
    (blank_input none ∧ count_tokens none = some 0 ∧
      tokenize alloc_ok none = some (some [none])) ∧
    (blank_input (some []) ∧ count_tokens (some []) = some 0 ∧
      tokenize alloc_ok (some []) = some (some [none])) :=
  ⟨⟨by unfold blank_input; decide, rfl,
      blank_input_gives_no_token (some [32, 32, 32, 9, 32, 32])
        (by unfold blank_input; decide) alloc_ok rfl⟩,
    ⟨trivial, blank_input_gives_no_token none trivial alloc_ok rfl⟩,
    ⟨by unfold blank_input; decide,
      blank_input_gives_no_token (some []) (by unfold blank_input; decide) alloc_ok rfl⟩⟩

/-- On lists, `tokenize` has a result for every input and every behaviour
of `malloc`, and no string among its entries holds a space or a tab.  The
entry of a token of 16-bit length `-1` is `none` on lists (see `copy_str`),
so this says nothing about the block returned for such a token. -/
theorem tokens_contain_no_delimiter (alloc : Nat → Bool) (str : Option (List Nat)) :
    ∃ r, tokenize alloc str = some r ∧
      ∀ arr, r = some arr → ∀ t, some t ∈ arr → 32 ∉ t ∧ 9 ∉ t := by
  cases str with
  | none =>
    refine ⟨_, tokenize_null alloc, ?_⟩
    intro arr harr t ht
    split at harr
    · injection harr with harr
      rw [← harr] at ht
      simp at ht
    · simp at harr
  | some s =>
    refine ⟨_, tokenize_eq alloc s, ?_⟩
    intro arr harr t ht
    split at harr
    · injection harr with harr
      rw [← harr, List.mem_append] at ht
      rcases ht with ht | ht
      · obtain ⟨r, hr, k, hk⟩ := mem_entries alloc (runs s) 0 t ht
        have hall : ∀ c ∈ t, word_cond c = true := by
          intro c hc
          rw [hk] at hc
          exact scan_all_word s [] (by simp) r hr c (List.mem_of_mem_take hc)
        refine ⟨fun h32 => ?_, fun h9 => ?_⟩
        · exact absurd (hall 32 h32) (by decide)
        · exact absurd (hall 9 h9) (by decide)
      · simp at ht
    · simp at harr

/-- C6 (fails on the code).  For a string of 65536 letters `a` the only
token that `tokenize` returns is the empty string: the length 65536 becomes
0 as a `short`. -/
theorem tokenize_returns_empty_token :
    tokenize alloc_ok (some (List.replicate 65536 97)) = some (some [some [], none]) := by
  have h := tokenize_replicate_trunc 65536 0 (by decide) [] []
    (flush_replicate 65536 (by decide))
  rw [List.append_nil] at h
  exact h

theorem scan_delim_delim (d d' : Nat) (b : List Nat) (hd : d = 32 ∨ d = 9)
    (hd' : d' = 32 ∨ d' = 9) (cur : List Nat) :
    scan (d :: d' :: b) cur = scan (d :: b) cur := by
  rw [scan_delim_cons d _ cur hd, scan_delim_cons d' _ [] hd', scan_delim_cons d _ cur hd]
  rfl

/-- On lists, spaces and tabs put in front of a string, put behind it, or
inserted after or before a space or tab inside it, change neither the runs
that the scan finds nor what `tokenize` and `count_tokens` make of them;
and `"  hello   world\t"` gives `hello`, `world`.  Where a token has the
16-bit length `-1` the equal entries are the `none` of `copy_str` on lists,
not what the program returns. -/
theorem delimiter_runs_collapse (alloc : Nat → Bool) (s ws a b : List Nat) (d d' : Nat)
    (hws : ∀ c ∈ ws, c = 32 ∨ c = 9) (hd : d = 32 ∨ d = 9) (hd' : d' = 32 ∨ d' = 9) :
    (tokenize alloc (some (ws ++ s)) = tokenize alloc (some s) ∧
      count_tokens (some (ws ++ s)) = count_tokens (some s)) ∧
    (tokenize alloc (some (s ++ ws)) = tokenize alloc (some s) ∧
      count_tokens (some (s ++ ws)) = count_tokens (some s)) ∧
    (tokenize alloc (some (a ++ d :: d' :: b)) = tokenize alloc (some (a ++ d :: b)) ∧
      count_tokens (some (a ++ d :: d' :: b)) = count_tokens (some (a ++ d :: b))) ∧
    (tokenize alloc (some (a ++ d' :: d :: b)) = tokenize alloc (some (a ++ d :: b)) ∧
      count_tokens (some (a ++ d' :: d :: b)) = count_tokens (some (a ++ d :: b))) ∧
    tokenize alloc_ok
        (some [32, 32, 104, 101, 108, 108, 111, 32, 32, 32, 119, 111, 114, 108, 100, 9])
      = some (some [some [104, 101, 108, 108, 111], some [119, 111, 114, 108, 100], none]) := by
  have h1 : runs (ws ++ s) = runs s := scan_delims_append ws s hws
  have h2 : runs (s ++ ws) = runs s := scan_append_delims s ws hws []
  have h3 : runs (a ++ d :: d' :: b) = runs (a ++ d :: b) :=
    scan_append_congr a _ _ (scan_delim_delim d d' b hd hd') []
  have h4 : runs (a ++ d' :: d :: b) = runs (a ++ d :: b) :=
    scan_append_congr a _ _ (fun cur => by
      rw [scan_delim_cons d' _ cur hd', scan_delim_cons d _ [] hd, scan_delim_cons d _ cur hd]
      rfl) []
  exact ⟨⟨tokenize_congr alloc _ _ h1, count_tokens_congr _ _ h1⟩,
    ⟨tokenize_congr alloc _ _ h2, count_tokens_congr _ _ h2⟩,
    ⟨tokenize_congr alloc _ _ h3, count_tokens_congr _ _ h3⟩,
    ⟨tokenize_congr alloc _ _ h4, count_tokens_congr _ _ h4⟩, by decide⟩

theorem delimiter_runs_collapse_witness :
    (∀ c ∈ [32, 9, 32], c = 32 ∨ c = 9) ∧
    tokenize alloc_ok (some ([32, 9, 32] ++ [104, 105, 32, 121, 111, 117]))
      = tokenize alloc_ok (some [104, 105, 32, 121, 111, 117]) ∧
    tokenize alloc_ok (some ([104, 105, 32, 121, 111, 117] ++ [32, 9, 32]))
      = tokenize alloc_ok (some [104, 105, 32, 121, 111, 117]) ∧
    tokenize alloc_ok (some ([104, 105] ++ 32 :: 9 :: [121, 111, 117]))
      = tokenize alloc_ok (some ([104, 105] ++ 32 :: [121, 111, 117])) ∧
    tokenize alloc_ok (some [104, 105, 32, 121, 111, 117])
      = some (some [some [104, 105], some [121, 111, 117], none]) :=
  have h := delimiter_runs_collapse alloc_ok [104, 105, 32, 121, 111, 117] [32, 9, 32]
    [104, 105] [121, 111, 117] 32 9 (by decide) (by decide) (by decide)
  ⟨by decide, h.1.1, h.2.1.1, h.2.2.1.1, by decide⟩

/-- On lists, putting a tab where a string has a space (or a space where it
has a tab) changes neither the runs that the scan finds nor what `tokenize`
and `count_tokens` make of them; and `"a\tb c"` gives `a`, `b`, `c`.  Where
a token has the 16-bit length `-1` the equal entries are the `none` of
`copy_str` on lists, not what the program returns. -/
theorem space_and_tab_interchangeable (alloc : Nat → Bool) (a b : List Nat) :
    tokenize alloc (some (a ++ 32 :: b)) = tokenize alloc (some (a ++ 9 :: b)) ∧
    count_tokens (some (a ++ 32 :: b)) = count_tokens (some (a ++ 9 :: b)) ∧
    tokenize alloc_ok (some [97, 9, 98, 32, 99])
      = some (some [some [97], some [98], some [99], none]) := by
  have h : runs (a ++ 32 :: b) = runs (a ++ 9 :: b) :=
    scan_append_congr a _ _ (fun cur => by
      rw [scan_delim_cons 32 _ cur (Or.inl rfl), scan_delim_cons 9 _ cur (Or.inr rfl)]) []
  exact ⟨tokenize_congr alloc _ _ h, count_tokens_congr _ _ h, by decide⟩

/-- C9 (fails on the code).  A string of 65537 letters `a` has no space or
tab to remove, but the tokens that `tokenize` returns for it concatenate to
the single letter `a`. -/
theorem concatenation_loses_content :
    tokenize alloc_ok (some (List.replicate 65537 97)) = some (some [some [97], none]) ∧
      (token_seq [some [97], none]).flatten = [97] ∧
      (List.replicate 65537 97).filter (fun c => c != 32 && c != 9)
        = List.replicate 65537 97 ∧
      [97] ≠ List.replicate 65537 97 := by
  refine ⟨?_, rfl, List.filter_replicate_of_pos (by decide), ?_⟩
  · have h := tokenize_replicate_trunc 65537 1 (by decide) [] []
      (flush_replicate 65537 (by decide))
    rw [List.append_nil] at h
    exact h
  · intro h
    have := congrArg List.length h
    rw [List.length_replicate] at this
    exact absurd this (by decide)

/-- C10 (fails on the code).  For 65536 letters `a`, a space and `b`,
`tokenize` returns the empty string and `b`; joined with one space they
read `" b"`, which tokenizes to `b` alone. -/
theorem retokenizing_the_join_differs :
    tokenize alloc_ok (some (List.replicate 65536 97 ++ [32, 98]))
        = some (some [some [], some [98], none]) ∧
      List.intercalate [32] (token_seq [some [], some [98], none]) = [32, 98] ∧
      tokenize alloc_ok (some [32, 98]) = some (some [some [98], none]) := by
  refine ⟨?_, rfl, by decide⟩
  have hrest : scan [32, 98] (List.replicate 65536 97) = List.replicate 65536 97 :: [[98]] := by
    rw [scan_delim_cons 32 [98] _ (Or.inl rfl), flush_replicate 65536 (by decide)]
    rfl
  exact tokenize_replicate_trunc 65536 0 (by decide) [32, 98] [[98]] hrest

/-! ## Allocation failure and the scanning functions -/

/-- C11 (fails on the code).  For `"a b"`, when the `malloc` of the first
token fails while the others succeed, `tokenize` returns an array whose
slot 0 is `NULL` and whose slot 1 holds `b`; only a failure of the array
allocation is reported by a `NULL` result. -/
theorem failed_copy_leaves_hole_in_array :
    tokenize (fun k => k != 1) (some [97, 32, 98]) = some (some [none, some [98], none]) ∧
      tokenize (fun k => k != 2) (some [97, 32, 98]) = some (some [some [97], none, none]) ∧
      tokenize (fun k => k != 0) (some [97, 32, 98]) = some none := by
  decide

theorem takeWhile_length_spec (f : Nat → Bool) (l : List Nat) :
    (∀ i, i < (l.takeWhile f).length → f (l.getD i 0) = true) ∧
      ((l.takeWhile f).length < l.length → f (l.getD (l.takeWhile f).length 0) = false) := by
  induction l with
  | nil => simp
  | cons c rest ih =>
    by_cases h : f c = true
    · rw [List.takeWhile_cons_of_pos h]
      refine ⟨?_, ?_⟩
      · intro i hi
        cases i with
        | zero => rw [List.getD_cons_zero]; exact h
        | succ j =>
          rw [List.getD_cons_succ]
          exact ih.1 j (by simpa using hi)
      · intro hlt
        rw [List.length_cons, List.getD_cons_succ]
        exact ih.2 (by simpa using hlt)
    · rw [List.takeWhile_cons_of_neg h]
      refine ⟨?_, ?_⟩
      · intro i hi; simp at hi
      · intro _
        rw [List.length_nil, List.getD_cons_zero]
        simpa using h

theorem getD_ne_zero_iff (s : List Nat) (hs : ∀ c ∈ s, c ≠ 0) (i : Nat) :
    s.getD i 0 ≠ 0 ↔ i < s.length := by
  induction s generalizing i with
  | nil => simp
  | cons c rest ih =>
    cases i with
    | zero =>
      rw [List.getD_cons_zero]
      simpa using hs c (List.mem_cons_self _ _)
    | succ j =>
      rw [List.getD_cons_succ, ih (fun x hx => hs x (List.mem_cons_of_mem _ hx)) j]
      simp

/-- Where the loop of `find_word_start` stops: at `q` in `[p, length]`, with
delimiters only in `[p, q)`, and not on a delimiter unless `q = length`. -/
theorem find_word_start_loop_spec (s : List Nat) (p : Nat) (hp : p ≤ s.length) :
    p ≤ find_word_start_loop (s.drop p) p ∧
      find_word_start_loop (s.drop p) p ≤ s.length ∧
      (∀ i, p ≤ i → i < find_word_start_loop (s.drop p) p → skip_cond (s.getD i 0) = true) ∧
      (find_word_start_loop (s.drop p) p < s.length →
        skip_cond (s.getD (find_word_start_loop (s.drop p) p) 0) = false) := by
  rw [find_word_start_loop_eq]
  have hle := length_takeWhile_le_length skip_cond (s.drop p)
  have hspec := takeWhile_length_spec skip_cond (s.drop p)
  rw [List.length_drop] at hle
  refine ⟨by omega, by omega, ?_, ?_⟩
  · intro i hpi hi
    have := hspec.1 (i - p) (by omega)
    rw [← getD_add_eq_getD_drop] at this
    have hi' : p + (i - p) = i := by omega
    rw [hi'] at this
    exact this
  · intro hlt
    have := hspec.2 (by rw [List.length_drop]; omega)
    rw [← getD_add_eq_getD_drop] at this
    exact this

/-- Where the loop of `find_word_terminator` stops: at `e` in `[p, length]`,
with token characters only in `[p, e)`, and not on a token character. -/
theorem find_word_terminator_loop_spec (s : List Nat) (p : Nat) (hp : p ≤ s.length) :
    p ≤ find_word_terminator_loop (s.drop p) p ∧
      find_word_terminator_loop (s.drop p) p ≤ s.length ∧
      (∀ i, p ≤ i → i < find_word_terminator_loop (s.drop p) p →
        word_cond (s.getD i 0) = true) ∧
      word_cond (s.getD (find_word_terminator_loop (s.drop p) p) 0) = false := by
  rw [find_word_terminator_loop_eq]
  have hle := length_takeWhile_le_length word_cond (s.drop p)
  have hspec := takeWhile_length_spec word_cond (s.drop p)
  rw [List.length_drop] at hle
  refine ⟨by omega, by omega, ?_, ?_⟩
  · intro i hpi hi
    have := hspec.1 (i - p) (by omega)
    rw [← getD_add_eq_getD_drop] at this
    have hi' : p + (i - p) = i := by omega
    rw [hi'] at this
    exact this
  · by_cases hlt : p + (List.takeWhile word_cond (s.drop p)).length < s.length
    · have := hspec.2 (by rw [List.length_drop]; omega)
      rw [← getD_add_eq_getD_drop] at this
      exact this
    · have hge : s.length ≤ p + (List.takeWhile word_cond (s.drop p)).length := by omega
      rw [List.getD_eq_default _ _ hge]
      decide

/-- C12.  On a NUL-terminated string and from a position `pos ≤ length`,
`token_start` (`find_word_start`) returns `NULL` exactly when only spaces
and tabs are left; otherwise it returns the least position `q ≥ pos` that
holds neither a space nor a tab: `q < length` and `[pos, q)` holds
delimiters only.  For `NULL` it returns `NULL`. -/
theorem token_start_spec (s : List Nat) (hs : ∀ c ∈ s, c ≠ 0) (pos : Nat)
    (hpos : pos ≤ s.length) :
    (token_start s (some pos) = none ↔
        ∀ i, pos ≤ i → i < s.length → s.getD i 0 = 32 ∨ s.getD i 0 = 9) ∧
      (∀ q, token_start s (some pos) = some q →
        pos ≤ q ∧ q < s.length ∧ (s.getD q 0 ≠ 32 ∧ s.getD q 0 ≠ 9) ∧
        (∀ i, pos ≤ i → i < q → s.getD i 0 = 32 ∨ s.getD i 0 = 9) ∧
        (∀ j, pos ≤ j → j < s.length → s.getD j 0 ≠ 32 → s.getD j 0 ≠ 9 → q ≤ j)) ∧
      token_start s none = none ∧
      find_word_start s (some pos) = token_start s (some pos) := by
  obtain ⟨h1, h2, h3, h4⟩ := find_word_start_loop_spec s pos hpos
  have hval : token_start s (some pos)
      = if s.getD (find_word_start_loop (s.drop pos) pos) 0 == 0 then none
        else some (find_word_start_loop (s.drop pos) pos) := rfl
  generalize find_word_start_loop (s.drop pos) pos = q at h1 h2 h3 h4 hval
  have hdel : ∀ i, pos ≤ i → i < q → s.getD i 0 = 32 ∨ s.getD i 0 = 9 :=
    fun i hi hiq => (skip_cond_iff _).1 (h3 i hi hiq)
  by_cases hq : q < s.length
  · have hne : s.getD q 0 ≠ 0 := (getD_ne_zero_iff s hs q).2 hq
    have hnd : ¬ (s.getD q 0 = 32 ∨ s.getD q 0 = 9) := by
      rw [← skip_cond_iff, h4 hq]; simp
    have hsome : token_start s (some pos) = some q := by
      rw [hval, if_neg (by rw [beq_iff_eq]; exact hne)]
    refine ⟨?_, ?_, rfl, rfl⟩
    · rw [hsome]
      constructor
      · intro h; cases h
      · intro h; exact absurd (h q h1 hq) hnd
    · intro q' hq'
      rw [hsome] at hq'
      injection hq' with hq'
      subst hq'
      refine ⟨h1, hq, ⟨fun h => hnd (Or.inl h), fun h => hnd (Or.inr h)⟩, hdel, ?_⟩
      intro j hj _ hj32 hj9
      by_contra hlt
      rcases hdel j hj (by omega) with h | h
      · exact hj32 h
      · exact hj9 h
  · have hqe : q = s.length := by omega
    have hz : s.getD q 0 = 0 := List.getD_eq_default _ _ (by omega)
    have hnone : token_start s (some pos) = none := by
      rw [hval, if_pos (by rw [beq_iff_eq]; exact hz)]
    refine ⟨?_, ?_, rfl, rfl⟩
    · rw [hnone]
      constructor
      · intro _ i hi hil; exact hdel i hi (by omega)
      · intro _; rfl
    · intro q' hq'
      rw [hnone] at hq'
      cases hq'

theorem token_start_spec_witness :
    (∀ c ∈ [32, 9, 104, 105, 32], c ≠ 0) ∧ 1 ≤ [32, 9, 104, 105, 32].length ∧
      token_start [32, 9, 104, 105, 32] (some 1) = some 2 ∧
      token_start [32, 9, 104, 105, 32] (some 4) = none ∧
      (token_start [32, 9, 104, 105, 32] (some 1) = none ↔
        ∀ i, 1 ≤ i → i < [32, 9, 104, 105, 32].length →
          [32, 9, 104, 105, 32].getD i 0 = 32 ∨ [32, 9, 104, 105, 32].getD i 0 = 9) :=
  ⟨by decide, by decide, by decide, by decide,
    (token_start_spec [32, 9, 104, 105, 32] (by decide) 1 (by decide)).1⟩

/-- C13.  From a position `pos ≤ length`, `token_terminator`
(`find_word_terminator`) returns the least position `e ≥ pos` that holds a
space, a tab or the terminator: `[pos, e)` holds token characters only and
`e ≤ length`. -/
theorem token_terminator_spec (s : List Nat) (pos : Nat) (hpos : pos ≤ s.length) :
    ∃ e, token_terminator s (some pos) = some e ∧
      find_word_terminator s (some pos) = some e ∧
      pos ≤ e ∧ e ≤ s.length ∧
      (s.getD e 0 = 32 ∨ s.getD e 0 = 9 ∨ s.getD e 0 = 0) ∧
      (∀ i, pos ≤ i → i < e → s.getD i 0 ≠ 32 ∧ s.getD i 0 ≠ 9 ∧ s.getD i 0 ≠ 0) ∧
      (∀ j, pos ≤ j → (s.getD j 0 = 32 ∨ s.getD j 0 = 9 ∨ s.getD j 0 = 0) → e ≤ j) := by
  obtain ⟨h1, h2, h3, h4⟩ := find_word_terminator_loop_spec s pos hpos
  refine ⟨find_word_terminator_loop (s.drop pos) pos, rfl, rfl, h1, h2, ?_, ?_, ?_⟩
  · by_contra hn
    have : word_cond (s.getD (find_word_terminator_loop (s.drop pos) pos) 0) = true := by
      rw [word_cond_iff]
      exact ⟨fun h => hn (Or.inl h), fun h => hn (Or.inr (Or.inl h)),
        fun h => hn (Or.inr (Or.inr h))⟩
    rw [h4] at this
    cases this
  · intro i hi hie
    exact (word_cond_iff _).1 (h3 i hi hie)
  · intro j hj hjd
    by_contra hlt
    have := (word_cond_iff _).1 (h3 j hj (by omega))
    rcases hjd with h | h | h
    · exact this.1 h
    · exact this.2.1 h
    · exact this.2.2 h

theorem token_terminator_spec_witness :
    2 ≤ [32, 9, 104, 105, 32].length ∧
      token_terminator [32, 9, 104, 105, 32] (some 2) = some 4 ∧
      ∃ e, token_terminator [32, 9, 104, 105, 32] (some 2) = some e ∧
        find_word_terminator [32, 9, 104, 105, 32] (some 2) = some e ∧
        2 ≤ e ∧ e ≤ [32, 9, 104, 105, 32].length ∧
        ([32, 9, 104, 105, 32].getD e 0 = 32 ∨ [32, 9, 104, 105, 32].getD e 0 = 9 ∨
          [32, 9, 104, 105, 32].getD e 0 = 0) ∧
        (∀ i, 2 ≤ i → i < e → [32, 9, 104, 105, 32].getD i 0 ≠ 32 ∧
          [32, 9, 104, 105, 32].getD i 0 ≠ 9 ∧ [32, 9, 104, 105, 32].getD i 0 ≠ 0) ∧
        (∀ j, 2 ≤ j → ([32, 9, 104, 105, 32].getD j 0 = 32 ∨
          [32, 9, 104, 105, 32].getD j 0 = 9 ∨ [32, 9, 104, 105, 32].getD j 0 = 0) → e ≤ j) :=
  ⟨by decide, by decide, token_terminator_spec [32, 9, 104, 105, 32] 2 (by decide)⟩

/-- C14.  Classification: `space_char c` holds exactly for space and tab,
`non_space_char c` exactly for what is none of space, tab and the
terminator; they never hold together, one of them holds for every
character but the terminator, and neither holds for the terminator. -/
theorem char_classification (c : Nat) :
    (space_char c = true ↔ c = 32 ∨ c = 9) ∧
      (non_space_char c = true ↔ c ≠ 32 ∧ c ≠ 9 ∧ c ≠ 0) ∧
      ¬ (space_char c = true ∧ non_space_char c = true) ∧
      (c ≠ 0 → (space_char c = true ∨ non_space_char c = true)) ∧
      (space_char 0 = false ∧ non_space_char 0 = false) := by
  have hs : space_char c = true ↔ c = 32 ∨ c = 9 := by
    simp [space_char]
  have hn : non_space_char c = true ↔ c ≠ 32 ∧ c ≠ 9 ∧ c ≠ 0 := by
    simp [non_space_char, and_assoc]
  refine ⟨hs, hn, ?_, ?_, by decide⟩
  · rintro ⟨h1, h2⟩
    rw [hs] at h1
    rw [hn] at h2
    rcases h1 with h | h
    · exact h2.1 h
    · exact h2.2.1 h
  · intro h0
    by_cases h : c = 32 ∨ c = 9
    · exact Or.inl (hs.2 h)
    · exact Or.inr (hn.2 ⟨fun x => h (Or.inl x), fun x => h (Or.inr x), h0⟩)

/-! ## Truncation, the second pass and termination -/

theorem find_word_start_some (s : List Nat) (p q : Nat)
    (h : find_word_start s (some p) = some q) :
    p ≤ q ∧ q < s.length ∧ word_cond (s.getD q 0) = true := by
  have hval : find_word_start s (some p)
      = if s.getD (find_word_start_loop (s.drop p) p) 0 == 0 then none
        else some (find_word_start_loop (s.drop p) p) := rfl
  rw [hval] at h
  split at h
  · cases h
  · rename_i hz
    injection h with h
    rw [h] at hz
    have hne : s.getD q 0 ≠ 0 := by
      intro h0; exact hz (by rw [beq_iff_eq]; exact h0)
    have hq : q < s.length := by
      by_contra hge
      exact hne (List.getD_eq_default _ _ (by omega))
    have hp : p ≤ s.length := by
      by_contra hgt
      have hnil : s.drop p = [] := List.drop_eq_nil_of_le (by omega)
      rw [hnil] at h
      have : q = p := h.symm
      omega
    obtain ⟨h1, _, _, h4⟩ := find_word_start_loop_spec s p hp
    rw [h] at h1 h4
    refine ⟨h1, hq, ?_⟩
    have hnd : ¬ (s.getD q 0 = 32 ∨ s.getD q 0 = 9) := by
      rw [← skip_cond_iff, h4 hq]; simp
    rw [word_cond_iff]
    exact ⟨fun x => hnd (Or.inl x), fun x => hnd (Or.inr x), hne⟩

theorem find_word_terminator_after (s : List Nat) (q : Nat) (hq : q < s.length)
    (hw : word_cond (s.getD q 0) = true) :
    ∃ e, find_word_terminator s (some q) = some e ∧ q < e ∧ e ≤ s.length := by
  obtain ⟨h1, h2, _, h4⟩ := find_word_terminator_loop_spec s q (Nat.le_of_lt hq)
  refine ⟨find_word_terminator_loop (s.drop q) q, rfl, ?_, h2⟩
  rcases Nat.lt_or_eq_of_le h1 with h | h
  · exact h
  · rw [← h, hw] at h4
    cases h4

/-- C17.  In an iteration of the loop of `tokenize` that finds the run
`[q, e)` of length `L = e - q`, the length given to `copy_str` is `L`
reduced to a signed 16-bit value `k`.  For `L ≤ 32767` the stored token is
the whole run; for `L > 32767` with `k ≥ 0` it is the first `k` characters
of the run, fewer than `L`; for 65541 letters `a`, `k = 5`. -/
theorem token_length_reduced_to_16_bits (alloc : Nat → Bool) (s : List Nat) (k idx p q e : Nat)
    (hq : find_word_start s (some p) = some q)
    (he : find_word_terminator s (some q) = some e)
    (hok : alloc (idx + 1) = true) :
    tokenize_loop alloc s (k + 1) idx (some p)
        = copy_str true s (some q) (toShort ((e : Int) - (q : Int)))
          :: tokenize_loop alloc s k (idx + 1) (some e) ∧
      toShort ((e : Int) - (q : Int))
        = (((e - q : Nat) : Int) + 32768) % 65536 - 32768 ∧
      (e - q ≤ 32767 →
        copy_str true s (some q) (toShort ((e : Int) - (q : Int)))
          = some ((s.drop q).take (e - q))) ∧
      (32767 < e - q → 0 ≤ toShort ((e : Int) - (q : Int)) →
        copy_str true s (some q) (toShort ((e : Int) - (q : Int)))
            = some ((s.drop q).take (toShort ((e : Int) - (q : Int))).toNat) ∧
          (toShort ((e : Int) - (q : Int))).toNat < e - q) ∧
      (toShort 65541 = 5 ∧
        tokenize alloc_ok (some (List.replicate 65541 97))
          = some (some [some (List.replicate 5 97), none])) := by
  obtain ⟨_, hql, hw⟩ := find_word_start_some s p q hq
  obtain ⟨e', he', hqe, hel⟩ := find_word_terminator_after s q hql hw
  rw [he] at he'
  injection he' with he'
  subst he'
  have hdiff : (e : Int) - (q : Int) = ((e - q : Nat) : Int) := by omega
  have hcopy := copy_str_eq_store true s q e (Nat.le_of_lt hqe) hel
  have hpd : ptr_diff (some e) (some q) = (e : Int) - (q : Int) := rfl
  rw [hpd] at hcopy
  have hlen : ((s.drop q).take (e - q)).length = e - q := by
    rw [List.length_take, List.length_drop]; omega
  refine ⟨?_, ?_, ?_, ?_, by decide, ?_⟩
  · simp only [tokenize_loop, hq, he, hok]
    rfl
  · rw [hdiff]; rfl
  · intro hL
    rw [hcopy]
    exact store_short _ (by rw [hlen]; exact hL)
  · intro hL hk
    have hle := toShort_le (e - q)
    rw [← hdiff] at hle
    refine ⟨?_, ?_⟩
    · rw [hcopy]
      unfold store
      rw [hlen, ← hdiff, if_pos (by simpa using hk), List.take_take,
        Nat.min_eq_left (by omega)]
    · have : toShort ((e : Int) - (q : Int)) ≤ 32767 := by
        unfold toShort; omega
      omega
  · have h := tokenize_replicate_trunc 65541 5 (by decide) [] []
      (flush_replicate 65541 (by decide))
    rw [List.append_nil] at h
    exact h

theorem token_length_reduced_to_16_bits_witness :
    find_word_start [32, 104, 105, 32, 121] (some 0) = some 1 ∧
      find_word_terminator [32, 104, 105, 32, 121] (some 1) = some 3 ∧
      alloc_ok (0 + 1) = true ∧
      tokenize_loop alloc_ok [32, 104, 105, 32, 121] (1 + 1) 0 (some 0)
        = copy_str true [32, 104, 105, 32, 121] (some 1) (toShort ((3 : Int) - (1 : Int)))
          :: tokenize_loop alloc_ok [32, 104, 105, 32, 121] 1 (0 + 1) (some 3) ∧
      copy_str true [32, 104, 105, 32, 121] (some 1) (toShort ((3 : Int) - (1 : Int)))
        = some [104, 105] :=
  have h := token_length_reduced_to_16_bits alloc_ok [32, 104, 105, 32, 121] 1 0 0 1 3
    (by decide) (by decide) rfl
  ⟨by decide, by decide, rfl, h.1, by decide⟩

theorem tokenize_loop_eq_trace (alloc : Nat → Bool) (s : List Nat) :
    ∀ k idx p, tokenize_loop alloc s k idx p
      = List.zipWith
          (fun st i => copy_str (alloc (i + 1)) s st.2.1 (toShort (ptr_diff st.2.2 st.2.1)))
          (tokenize_trace s k p) (List.range' idx k) := by
  intro k
  induction k with
  | zero => intro idx p; rfl
  | succ k ih =>
    intro idx p
    simp only [tokenize_loop, tokenize_trace, List.range'_succ, List.zipWith_cons_cons]
    rw [ih]

theorem tokenize_trace_length (s : List Nat) :
    ∀ k p, (tokenize_trace s k p).length = k := by
  intro k
  induction k with
  | zero => intro p; rfl
  | succ k ih => intro p; simp only [tokenize_trace, List.length_cons, ih]

theorem scan_length_le (l : List Nat) :
    ∀ cur, (scan l cur).length ≤ l.length + (if cur = [] then 0 else 1) := by
  have hflush : ∀ cur : List Nat, (flush cur).length = if cur = [] then 0 else 1 := by
    intro cur; cases cur <;> simp [flush]
  induction l with
  | nil => intro cur; rw [scan, hflush]; simp
  | cons c cs ih =>
    intro cur
    rw [scan_cons]
    by_cases h0 : c = 0
    · rw [if_pos h0, hflush]; simp only [List.length_cons]; omega
    · rw [if_neg h0]
      by_cases hd : c = 32 ∨ c = 9
      · rw [if_pos hd, List.length_append, hflush]
        have := ih []
        simp only [if_true, List.length_cons] at this ⊢
        omega
      · rw [if_neg hd]
        have := ih (cur ++ [c])
        have hne : cur ++ [c] ≠ [] := by simp
        rw [if_neg hne] at this
        simp only [List.length_cons]
        omega

theorem count_words_loop_fuel (s : List Nat) :
    ∀ (fuel p : Nat) (count : Int), p ≤ s.length →
      count_words_loop s fuel (some p) count
        = if (runs (s.drop p)).length < fuel
          then some (count + ((runs (s.drop p)).length : Int)) else none := by
  intro fuel
  induction fuel with
  | zero => intro p count _; rfl
  | succ fuel ih =>
    intro p count hp
    rcases scan_step s p hp with ⟨h1, h2⟩ | ⟨q, e, h1, h2, hpq, hqe, hel, hr⟩
    · simp [count_words_loop, h1, h2]
    · simp only [count_words_loop, h1, h2]
      rw [ih e (count + 1) hel, hr]
      simp only [List.length_cons, Nat.add_lt_add_iff_right]
      by_cases hlt : (runs (s.drop e)).length < fuel
      · rw [if_pos hlt, if_pos hlt]
        push_cast
        congr 1
        ring
      · rw [if_neg hlt, if_neg hlt]

/-- C19.  The loop of `count_words` terminates: a start `q` found from `p` has
its terminator `e` with `p ≤ q < e ≤ length`, so the scan position grows in
every iteration that finds a token; the loop runs `n ≤ length` such
iterations, where `n` is the count returned, and leaves at the next test
(any fuel above `n` is enough, no fuel up to `n` is). -/
theorem count_words_terminates (s : List Nat) :
    (∀ p q, find_word_start s (some p) = some q →
        ∃ e, find_word_terminator s (some q) = some e ∧ p ≤ q ∧ q < e ∧ e ≤ s.length) ∧
      ∃ n : Nat, n ≤ s.length ∧ count_words (some s) = some (n : Int) ∧
        (∀ fuel, n < fuel → count_words_loop s fuel (some 0) 0 = some (n : Int)) ∧
        (∀ fuel, fuel ≤ n → count_words_loop s fuel (some 0) 0 = none) := by
  refine ⟨?_, (runs s).length, ?_, count_words_eq s, ?_, ?_⟩
  · intro p q h
    obtain ⟨hpq, hql, hw⟩ := find_word_start_some s p q h
    obtain ⟨e, he, hqe, hel⟩ := find_word_terminator_after s q hql hw
    exact ⟨e, he, hpq, hqe, hel⟩
  · have := scan_length_le s []
    simpa [runs] using this
  · intro fuel hf
    rw [count_words_loop_fuel s fuel 0 0 (Nat.zero_le _), List.drop_zero, if_pos hf]
    simp
  · intro fuel hf
    rw [count_words_loop_fuel s fuel 0 0 (Nat.zero_le _), List.drop_zero,
      if_neg (by omega)]

/-! ## Concatenation -/

theorem scan_append_delim (s t : List Nat) (d : Nat) (hs : ∀ c ∈ s, c ≠ 0)
    (hd : d = 32 ∨ d = 9) :
    ∀ cur, scan (s ++ d :: t) cur = scan s cur ++ scan t [] := by
  induction s with
  | nil =>
    intro cur
    rw [List.nil_append, scan_delim_cons d t cur hd]
    rfl
  | cons c cs ih =>
    intro cur
    have h0 : c ≠ 0 := hs c (List.mem_cons_self _ _)
    have ih' := ih (fun x hx => hs x (List.mem_cons_of_mem _ hx))
    rw [List.cons_append, scan_cons, scan_cons, if_neg h0, if_neg h0]
    by_cases hc : c = 32 ∨ c = 9
    · rw [if_pos hc, if_pos hc, ih' [], List.append_assoc]
    · rw [if_neg hc, if_neg hc, ih' (cur ++ [c])]

theorem entries_alloc_ok (rs : List (List Nat)) :
    ∀ idx, entries alloc_ok idx rs = rs.map (store true) := by
  induction rs with
  | nil => intro idx; rfl
  | cons r rest ih =>
    intro idx
    simp only [entries, List.map_cons, ih]
    rfl

/-- On lists, cell by cell: for a string `s` without terminator inside, a
delimiter `d` and a string `t`, the number of runs of `s ++ [d] ++ t` is
the sum of the numbers of runs, and the cells of its array are the cells
for `s` followed by the cells for `t`, then the sentinel.  The cells
include `NULL` entries, behind which a reader of the array sees nothing. -/
theorem tokenize_distributes_over_concat (s t : List Nat) (d : Nat)
    (hs : ∀ c ∈ s, c ≠ 0) (hd : d = 32 ∨ d = 9) :
    (∃ m n : Int, count_tokens (some s) = some m ∧ count_tokens (some t) = some n ∧
        count_tokens (some (s ++ [d] ++ t)) = some (m + n)) ∧
      (∃ a b, tokenize alloc_ok (some s) = some (some (a ++ [none])) ∧
        tokenize alloc_ok (some t) = some (some (b ++ [none])) ∧
        tokenize alloc_ok (some (s ++ [d] ++ t)) = some (some (a ++ b ++ [none]))) := by
  have happ : s ++ [d] ++ t = s ++ d :: t := by simp
  have hr : runs (s ++ [d] ++ t) = runs s ++ runs t := by
    rw [happ]
    exact scan_append_delim s t d hs hd []
  refine ⟨⟨((runs s).length : Int), ((runs t).length : Int), count_words_eq s,
      count_words_eq t, ?_⟩,
    ⟨(runs s).map (store true), (runs t).map (store true), ?_, ?_, ?_⟩⟩
  · unfold count_tokens
    rw [count_words_eq, hr, List.length_append]
    push_cast
    rfl
  · rw [tokenize_eq, entries_alloc_ok]; rfl
  · rw [tokenize_eq, entries_alloc_ok]; rfl
  · rw [tokenize_eq, entries_alloc_ok, hr, List.map_append]; rfl

theorem tokenize_distributes_over_concat_witness :
    (∀ c ∈ [104, 105, 32, 121, 111], c ≠ 0) ∧ ((9 : Nat) = 32 ∨ (9 : Nat) = 9) ∧
      count_tokens (some ([104, 105, 32, 121, 111] ++ [9] ++ [32, 97, 98])) = some (2 + 1) ∧
      tokenize alloc_ok (some ([104, 105, 32, 121, 111] ++ [9] ++ [32, 97, 98]))
        = some (some ([some [104, 105], some [121, 111]] ++ [some [97, 98]] ++ [none])) ∧
      ((∃ m n : Int, count_tokens (some [104, 105, 32, 121, 111]) = some m ∧
          count_tokens (some [32, 97, 98]) = some n ∧
          count_tokens (some ([104, 105, 32, 121, 111] ++ [9] ++ [32, 97, 98]))
            = some (m + n)) ∧
        (∃ a b, tokenize alloc_ok (some [104, 105, 32, 121, 111]) = some (some (a ++ [none])) ∧
          tokenize alloc_ok (some [32, 97, 98]) = some (some (b ++ [none])) ∧
          tokenize alloc_ok (some ([104, 105, 32, 121, 111] ++ [9] ++ [32, 97, 98]))
            = some (some (a ++ b ++ [none])))) :=
  ⟨by decide, by decide, by decide, by decide,
    tokenize_distributes_over_concat [104, 105, 32, 121, 111] [32, 97, 98] 9
      (by decide) (by decide)⟩

/-! ## The heap -/

theorem getElem?_append_cons_length {α : Type} (H T : List α) (x : α) :
    (H ++ x :: T)[H.length]? = some x := by
  rw [List.getElem?_append_right (Nat.le_refl _), Nat.sub_self]
  simp

theorem set_append_cons_length {α : Type} (H T : List α) (x y : α) :
    (H ++ x :: T).set H.length y = H ++ y :: T := by
  induction H with
  | nil => rfl
  | cons a H ih =>
    rw [List.cons_append, List.length_cons, List.set_cons_succ, ih, List.cons_append]

theorem string_of_append (H T : List Block) (inb : Nat) (hin : inb < H.length) :
    string_of (H ++ T) inb = string_of H inb := by
  unfold string_of
  rw [List.getElem?_append_left hin]

theorem store_byte_at (H T : List Block) (pre post : List Nat) (x v : Nat) :
    store_byte (H ++ Block.bytes (pre ++ x :: post) :: T) H.length pre.length v
      = Run.done (H ++ Block.bytes (pre ++ v :: post) :: T) := by
  unfold store_byte
  rw [getElem?_append_cons_length]
  simp only
  rw [if_pos (by simp), set_append_cons_length, set_append_cons_length]

theorem store_cell_at (H T : List Block) (pre post : List (Option Nat)) (x v : Option Nat) :
    store_cell (H ++ Block.cells (pre ++ x :: post) :: T) H.length pre.length v
      = Run.done (H ++ Block.cells (pre ++ v :: post) :: T) := by
  unfold store_cell
  rw [getElem?_append_cons_length]
  simp only
  rw [if_pos (by simp), set_append_cons_length, set_append_cons_length]

theorem count_words_loop_st_eq (b : Nat) (h : List Block) :
    ∀ (fuel : Nat) (p : Option Nat) (count : Int),
      count_words_loop_st b fuel h p count
        = match count_words_loop (string_of h b) fuel p count with
          | some n => Run.done (h, n)
          | none => Run.timeout := by
  intro fuel
  induction fuel with
  | zero => intro p count; rfl
  | succ fuel ih =>
    intro p count
    simp only [count_words_loop_st, count_words_loop, find_word_start_st,
      find_word_terminator_st]
    cases hfs : find_word_start (string_of h b) p with
    | none => rfl
    | some start => exact ih _ _

theorem count_words_st_some (h : List Block) (b : Nat) :
    count_words_st h (some b) = Run.done (h, ((runs (string_of h b)).length : Int)) := by
  have h1 := count_words_loop_st_eq b h ((string_of h b).length + 1) (some 0) 0
  have h2 : count_words_loop (string_of h b) ((string_of h b).length + 1) (some 0) 0
      = some ((runs (string_of h b)).length : Int) := count_words_eq (string_of h b)
  rw [h2] at h1
  exact h1

theorem copy_str_loop_st_eq (H : List Block) (inb : Nat) (inStr : Option Nat)
    (hin : inb < H.length) :
    ∀ (k i : Nat) (pre post : List Nat), pre.length = i → k ≤ post.length →
      copy_str_loop_st inb inStr H.length k i (H ++ [Block.bytes (pre ++ post)])
        = Run.done (H ++ [Block.bytes
            (pre ++ (List.range' i k).map (fun j => load (string_of H inb) inStr j)
              ++ post.drop k)]) := by
  intro k
  induction k with
  | zero => intro i pre post _ _; simp [copy_str_loop_st]
  | succ k ih =>
    intro i pre post hi hk
    cases post with
    | nil => simp at hk
    | cons x post =>
      have hk' : k ≤ post.length := by simpa using hk
      simp only [copy_str_loop_st]
      rw [string_of_append H _ inb hin, ← hi, store_byte_at H [] pre post x]
      simp only [Run.bind]
      have := ih (pre.length + 1) (pre ++ [load (string_of H inb) inStr pre.length]) post
        (by simp) hk'
      rw [List.append_assoc, List.singleton_append] at this
      rw [this, List.range'_succ]
      simp

theorem copy_str_st_eq (ok : Bool) (H : List Block) (inb : Nat) (inStr : Option Nat)
    (len : Int) (hin : inb < H.length) :
    copy_str_st ok H inb inStr len
      = if ok && decide (0 ≤ len + 1) then
          (if 0 ≤ len then
            Run.done (H ++ [Block.bytes
              ((List.range len.toNat).map (fun j => load (string_of H inb) inStr j) ++ [0])],
              some H.length)
          else Run.fault)
        else Run.done (H, none) := by
  unfold copy_str_st
  by_cases hc : (ok && decide (0 ≤ len + 1)) = true
  · rw [if_pos hc, if_pos hc]
    by_cases hl : 0 ≤ len
    · have hn : (len + 1).toNat = len.toNat + 1 := by omega
      rw [hn, if_pos hl]
      have h1 := copy_str_loop_st_eq H inb inStr hin len.toNat 0 []
        (List.replicate (len.toNat + 1) 0) rfl (by simp)
      rw [List.nil_append] at h1
      rw [h1]
      simp only [Run.bind, if_pos hl]
      have hd : List.drop len.toNat (List.replicate (len.toNat + 1) 0) = [0] := by
        simp
      rw [hd, List.nil_append, ← List.range_eq_range']
      have h2 := store_byte_at H []
        ((List.range len.toNat).map (fun j => load (string_of H inb) inStr j)) [] 0 0
      rw [List.length_map, List.length_range] at h2
      rw [h2]
    · have hn : (len + 1).toNat = 0 := by omega
      have hn' : len.toNat = 0 := by omega
      rw [hn, hn']
      simp only [copy_str_loop_st, Run.bind, if_neg hl]
  · rw [if_neg hc, if_neg hc]

theorem run_bind_done {α β : Type} (a : α) (f : α → Run β) :
    (Run.done a).bind f = f a := rfl

theorem tokenize_loop_st_eq (alloc : Nat → Bool) (h0 : List Block) (inb : Nat)
    (hin : inb < h0.length) :
    ∀ (k idx : Nat) (p : Option Nat) (pre post : List (Option Nat)) (ext : List Block),
      pre.length = idx → k ≤ post.length →
      tokenize_loop_st alloc inb h0.length k idx p (h0 ++ Block.cells (pre ++ post) :: ext)
        = (place alloc (string_of h0 inb) (h0.length + 1 + ext.length) idx
            (tokenize_trace (string_of h0 inb) k p)).bind
          fun r => Run.done (h0 ++ Block.cells (pre ++ r.1 ++ post.drop k) :: (ext ++ r.2)) := by
  intro k
  induction k with
  | zero =>
    intro idx p pre post ext _ _
    simp [tokenize_loop_st, tokenize_trace, place, Run.bind]
  | succ k ih =>
    intro idx p pre post ext hidx hk
    cases post with
    | nil => simp at hk
    | cons x post =>
      have hk' : k ≤ post.length := by simpa using hk
      have hlen : (h0 ++ Block.cells (pre ++ x :: post) :: ext).length
          = h0.length + 1 + ext.length := by
        simp only [List.length_append, List.length_cons]; omega
      have hin' : inb < (h0 ++ Block.cells (pre ++ x :: post) :: ext).length := by
        rw [hlen]; omega
      simp only [tokenize_loop_st, tokenize_trace, place]
      rw [copy_str_st_eq _ _ _ _ _ hin', string_of_append h0 _ inb hin, hlen]
      generalize find_word_start (string_of h0 inb) p = start
      generalize find_word_terminator (string_of h0 inb) start = e
      generalize toShort (ptr_diff e start) = len
      by_cases hc : (alloc (idx + 1) && decide (0 ≤ len + 1)) = true
      · rw [if_pos hc]
        have hok : alloc (idx + 1) = true := by
          simp only [Bool.and_eq_true] at hc; exact hc.1
        have hl1 : 0 ≤ len + 1 := by
          simp only [Bool.and_eq_true, decide_eq_true_eq] at hc; exact hc.2
        by_cases hl : 0 ≤ len
        · have hnf : ¬ (alloc (idx + 1) && decide (len = -1)) = true := by
            simp only [Bool.and_eq_true, decide_eq_true_eq]; omega
          have hcopy : copy_str (alloc (idx + 1)) (string_of h0 inb) start len
              = some ((List.range len.toNat).map
                  (fun j => load (string_of h0 inb) start j)) := by
            unfold copy_str
            rw [if_pos (by simp [hok, hl])]
          rw [if_pos hl, if_neg hnf, hcopy, run_bind_done]
          simp only
          have happ : h0 ++ Block.cells (pre ++ x :: post) :: ext
                ++ [Block.bytes ((List.range len.toNat).map
                  (fun j => load (string_of h0 inb) start j) ++ [0])]
              = h0 ++ Block.cells (pre ++ x :: post)
                :: (ext ++ [Block.bytes ((List.range len.toNat).map
                  (fun j => load (string_of h0 inb) start j) ++ [0])]) := by
            simp
          rw [happ, ← hidx, store_cell_at, run_bind_done]
          have := ih (pre.length + 1) e (pre ++ [some (h0.length + 1 + ext.length)]) post
            (ext ++ [Block.bytes ((List.range len.toNat).map
              (fun j => load (string_of h0 inb) start j) ++ [0])]) (by simp) hk'
          rw [List.append_assoc, List.singleton_append] at this
          rw [this]
          have hl2 : h0.length + 1 + (ext ++ [Block.bytes ((List.range len.toNat).map
              (fun j => load (string_of h0 inb) start j) ++ [0])]).length
              = h0.length + 1 + ext.length + 1 := by
            simp only [List.length_append, List.length_cons, List.length_nil]; omega
          rw [hl2]
          cases place alloc (string_of h0 inb) (h0.length + 1 + ext.length + 1)
              (pre.length + 1) (tokenize_trace (string_of h0 inb) k e) with
          | done r => simp [Run.bind]
          | fault => rfl
          | timeout => rfl
        · have hm1 : len = -1 := by omega
          have hf : (alloc (idx + 1) && decide (len = -1)) = true := by
            simp [hok, hm1]
          rw [if_neg hl, if_pos hf]
          rfl
      · rw [if_neg hc]
        have hnf : ¬ (alloc (idx + 1) && decide (len = -1)) = true := by
          intro hf
          apply hc
          simp only [Bool.and_eq_true, decide_eq_true_eq] at hf ⊢
          exact ⟨hf.1, by omega⟩
        have hcopy : copy_str (alloc (idx + 1)) (string_of h0 inb) start len = none := by
          unfold copy_str
          rw [if_neg]
          intro hf
          apply hc
          simp only [Bool.and_eq_true, decide_eq_true_eq] at hf ⊢
          exact ⟨hf.1, by omega⟩
        rw [if_neg hnf, hcopy, run_bind_done]
        simp only
        rw [← hidx, store_cell_at, run_bind_done]
        have := ih (pre.length + 1) e (pre ++ [none]) post ext (by simp) hk'
        rw [List.append_assoc, List.singleton_append] at this
        rw [this]
        cases place alloc (string_of h0 inb) (h0.length + 1 + ext.length)
            (pre.length + 1) (tokenize_trace (string_of h0 inb) k e) with
        | done r => simp [Run.bind]
        | fault => rfl
        | timeout => rfl

theorem place_done_length (alloc : Nat → Bool) (s : List Nat) :
    ∀ (tr : List (Option Nat × Option Nat × Option Nat)) (nxt idx : Nat)
      (r : List (Option Nat) × List Block),
      place alloc s nxt idx tr = Run.done r → r.1.length = tr.length := by
  intro tr
  induction tr with
  | nil =>
    intro nxt idx r h
    simp only [place] at h
    injection h with h
    rw [← h]; rfl
  | cons st rest ih =>
    intro nxt idx r h
    simp only [place] at h
    split at h
    · cases h
    · split at h
      · cases hp : place alloc s (nxt + 1) (idx + 1) rest with
        | done r' =>
          rw [hp, run_bind_done] at h
          injection h with h
          rw [← h]
          simp only [List.length_cons, ih _ _ _ hp]
        | fault => rw [hp] at h; cases h
        | timeout => rw [hp] at h; cases h
      · cases hp : place alloc s nxt (idx + 1) rest with
        | done r' =>
          rw [hp, run_bind_done] at h
          injection h with h
          rw [← h]
          simp only [List.length_cons, ih _ _ _ hp]
        | fault => rw [hp] at h; cases h
        | timeout => rw [hp] at h; cases h

theorem place_ne_timeout (alloc : Nat → Bool) (s : List Nat) :
    ∀ (tr : List (Option Nat × Option Nat × Option Nat)) (nxt idx : Nat),
      place alloc s nxt idx tr ≠ Run.timeout := by
  intro tr
  induction tr with
  | nil => intro nxt idx h; simp only [place] at h; cases h
  | cons st rest ih =>
    intro nxt idx h
    simp only [place] at h
    split at h
    · cases h
    · split at h
      · cases hp : place alloc s (nxt + 1) (idx + 1) rest with
        | done r' => rw [hp, run_bind_done] at h; cases h
        | fault => rw [hp] at h; cases h
        | timeout => exact ih _ _ hp
      · cases hp : place alloc s nxt (idx + 1) rest with
        | done r' => rw [hp, run_bind_done] at h; cases h
        | fault => rw [hp] at h; cases h
        | timeout => exact ih _ _ hp

theorem place_done_of_lengths (alloc : Nat → Bool) (s : List Nat) :
    ∀ (tr : List (Option Nat × Option Nat × Option Nat)) (nxt idx : Nat),
      (∀ st ∈ tr, toShort (ptr_diff st.2.2 st.2.1) ≠ -1) →
      ∃ r, place alloc s nxt idx tr = Run.done r := by
  intro tr
  induction tr with
  | nil => intro nxt idx _; exact ⟨_, rfl⟩
  | cons st rest ih =>
    intro nxt idx hne
    have h1 : toShort (ptr_diff st.2.2 st.2.1) ≠ -1 := hne st (List.mem_cons_self _ _)
    have hrest : ∀ st' ∈ rest, toShort (ptr_diff st'.2.2 st'.2.1) ≠ -1 :=
      fun st' hst' => hne st' (List.mem_cons_of_mem _ hst')
    simp only [place]
    rw [if_neg (by simp [h1])]
    split
    · obtain ⟨r, hr⟩ := ih (nxt + 1) (idx + 1) hrest
      rw [hr]; exact ⟨_, rfl⟩
    · obtain ⟨r, hr⟩ := ih nxt (idx + 1) hrest
      rw [hr]; exact ⟨_, rfl⟩

/-- What `tokenize` does to the heap: nothing when the array is refused;
else the array block and the token blocks are appended to it. -/
theorem tokenize_st_eq (alloc : Nat → Bool) (h : List Block) (b : Nat) (hb : b < h.length) :
    tokenize_st alloc h (some b)
      = if alloc 0 then
          (place alloc (string_of h b) (h.length + 1) 0
              (tokenize_trace (string_of h b) (runs (string_of h b)).length (some 0))).bind
            fun r => Run.done (h ++ Block.cells (r.1 ++ [none]) :: r.2, some h.length)
        else Run.done (h, none) := by
  unfold tokenize_st
  rw [count_words_st_some, run_bind_done]
  simp only [Int.toNat_ofNat, Option.getD_some, Option.map_some']
  by_cases ha : alloc 0 = true
  · rw [if_pos ha, if_pos ha]
    have hloop := tokenize_loop_st_eq alloc h b hb (runs (string_of h b)).length 0 (some 0) []
      (List.replicate ((runs (string_of h b)).length + 1) none) [] rfl (by simp)
    simp only [List.nil_append, List.length_nil, Nat.add_zero] at hloop
    have hd : List.drop (runs (string_of h b)).length
        (List.replicate ((runs (string_of h b)).length + 1) (none : Option Nat)) = [none] := by
      simp
    rw [hd] at hloop
    rw [hloop]
    cases hp : place alloc (string_of h b) (h.length + 1) 0
        (tokenize_trace (string_of h b) (runs (string_of h b)).length (some 0)) with
    | done r =>
      have hlen : r.1.length = (runs (string_of h b)).length := by
        rw [place_done_length alloc _ _ _ _ _ hp, tokenize_trace_length]
      simp only [run_bind_done]
      rw [← hlen, store_cell_at h r.2 r.1 [] none none, run_bind_done]
    | fault => rfl
    | timeout => rfl
  · rw [if_neg ha, if_neg ha]

theorem tokenize_st_null (alloc : Nat → Bool) (h : List Block) :
    tokenize_st alloc h none
      = if alloc 0 then Run.done (h ++ [Block.cells [none]], some h.length)
        else Run.done (h, none) := by
  unfold tokenize_st
  simp only [count_words_st, run_bind_done, Int.toNat_zero, Option.map_none',
    tokenize_loop_st, Nat.zero_add, List.replicate_one]
  by_cases ha : alloc 0 = true
  · rw [if_pos ha, if_pos ha]
    have := store_cell_at h [] [] [] none none
    simp only [List.nil_append, List.length_nil] at this
    rw [this, run_bind_done]
  · rw [if_neg ha, if_neg ha]

/-- Over the heap, `count_tokens` returns the heap it was given, so a
second call returns the same count; `tokenize` always ends, and whenever
it returns, every block that existed before the call, the input string
with its terminator among them, is what it was, and `count_tokens` still
returns the same count.  It returns whenever no token is given the 16-bit
length `-1`; a run that gives a token this length is undefined. -/
theorem input_not_mutated (alloc : Nat → Bool) (h : List Block) (b : Nat) (s : List Nat)
    (hb : h[b]? = some (Block.bytes s)) :
    ∃ n : Nat, count_tokens (some s) = some (n : Int) ∧
      count_tokens_st h (some b) = Run.done (h, (n : Int)) ∧
      (count_tokens_st h (some b)).bind (fun r => count_tokens_st r.1 (some b))
        = Run.done (h, (n : Int)) ∧
      tokenize_st alloc h (some b) ≠ Run.timeout ∧
      (∀ h1 r, tokenize_st alloc h (some b) = Run.done (h1, r) →
        (∀ i, i < h.length → h1[i]? = h[i]?) ∧ h1[b]? = some (Block.bytes s) ∧
        count_tokens_st h1 (some b) = Run.done (h1, (n : Int))) ∧
      ((∀ st ∈ tokenize_trace s n (some 0), toShort (ptr_diff st.2.2 st.2.1) ≠ -1) →
        ∃ h1 r, tokenize_st alloc h (some b) = Run.done (h1, r)) := by
  have hlt : b < h.length := by
    by_contra hge
    rw [List.getElem?_eq_none (by omega)] at hb
    cases hb
  have hs : string_of h b = s := by
    unfold string_of; rw [hb]
  have hcount : count_tokens_st h (some b) = Run.done (h, ((runs s).length : Int)) := by
    unfold count_tokens_st
    rw [count_words_st_some, hs]
  have hst := tokenize_st_eq alloc h b hlt
  rw [hs] at hst
  refine ⟨(runs s).length, count_words_eq s, hcount, ?_, ?_, ?_, ?_⟩
  · rw [hcount, run_bind_done]
    exact hcount
  · rw [hst]
    split
    · cases hp : place alloc s (h.length + 1) 0 (tokenize_trace s (runs s).length (some 0)) with
      | done r => intro hc; cases hc
      | fault => intro hc; cases hc
      | timeout => exact absurd hp (place_ne_timeout alloc s _ _ _)
    · intro hc; cases hc
  · intro h1 r hdone
    have hpre : ∃ ext, h1 = h ++ ext := by
      rw [hst] at hdone
      split at hdone
      · cases hp : place alloc s (h.length + 1) 0
            (tokenize_trace s (runs s).length (some 0)) with
        | done r' =>
          rw [hp, run_bind_done] at hdone
          injection hdone with hdone
          injection hdone with h1eq _
          exact ⟨_, h1eq.symm⟩
        | fault => rw [hp] at hdone; cases hdone
        | timeout => rw [hp] at hdone; cases hdone
      · injection hdone with hdone
        injection hdone with h1eq _
        exact ⟨[], by rw [List.append_nil]; exact h1eq.symm⟩
    obtain ⟨ext, hext⟩ := hpre
    have hfr : ∀ i, i < h.length → h1[i]? = h[i]? := by
      intro i hi
      rw [hext, List.getElem?_append_left hi]
    refine ⟨hfr, ?_, ?_⟩
    · rw [hfr b hlt]; exact hb
    · unfold count_tokens_st
      rw [count_words_st_some]
      have : string_of h1 b = s := by
        rw [hext, string_of_append h ext b hlt]; exact hs
      rw [this]
  · intro hne
    rw [hst]
    split
    · obtain ⟨r, hr⟩ := place_done_of_lengths alloc s
        (tokenize_trace s (runs s).length (some 0)) (h.length + 1) 0 hne
      rw [hr]
      exact ⟨_, _, rfl⟩
    · exact ⟨_, _, rfl⟩

theorem input_not_mutated_witness :
    sample_heap[0]? = some (Block.bytes [104, 105, 32, 121, 111, 0]) ∧
      tokenize_st alloc_ok sample_heap (some 0)
        = Run.done ([Block.bytes [104, 105, 32, 121, 111, 0],
            Block.cells [some 2, some 3, none], Block.bytes [104, 105, 0],
            Block.bytes [121, 111, 0]], some 1) ∧
      ∃ n : Nat, count_tokens (some [104, 105, 32, 121, 111, 0]) = some (n : Int) ∧
        count_tokens_st sample_heap (some 0) = Run.done (sample_heap, (n : Int)) ∧
        (count_tokens_st sample_heap (some 0)).bind
            (fun r => count_tokens_st r.1 (some 0))
          = Run.done (sample_heap, (n : Int)) ∧
        tokenize_st alloc_ok sample_heap (some 0) ≠ Run.timeout ∧
        (∀ h1 r, tokenize_st alloc_ok sample_heap (some 0) = Run.done (h1, r) →
          (∀ i, i < sample_heap.length → h1[i]? = sample_heap[i]?) ∧
          h1[0]? = some (Block.bytes [104, 105, 32, 121, 111, 0]) ∧
          count_tokens_st h1 (some 0) = Run.done (h1, (n : Int))) ∧
        ((∀ st ∈ tokenize_trace [104, 105, 32, 121, 111, 0] n (some 0),
            toShort (ptr_diff st.2.2 st.2.1) ≠ -1) →
          ∃ h1 r, tokenize_st alloc_ok sample_heap (some 0) = Run.done (h1, r)) :=
  ⟨by decide, by decide,
    input_not_mutated alloc_ok sample_heap 0 [104, 105, 32, 121, 111, 0] (by decide)⟩

/-! ## Releasing -/

theorem load_cell_at (h : List Block) (a : Nat) (pre post : List (Option Nat))
    (x : Option Nat) (ha : h[a]? = some (Block.cells (pre ++ x :: post))) :
    load_cell h a pre.length = Run.done x := by
  unfold load_cell
  rw [ha]
  simp only
  rw [getElem?_append_cons_length]

theorem free_live (h : List Block) (b : Nat) (blk : Block) (hb : h[b]? = some blk)
    (hl : blk ≠ Block.released) : free h b = Run.done (h.set b Block.released) := by
  unfold free
  rw [hb]
  cases blk with
  | bytes d => rfl
  | cells d => rfl
  | released => exact absurd rfl hl

theorem release_all_getElem? (ids : List Nat) :
    ∀ (h : List Block) (i : Nat), i ∉ ids → (release_all h ids)[i]? = h[i]? := by
  induction ids with
  | nil => intro h i _; rfl
  | cons b rest ih =>
    intro h i hi
    have hne : b ≠ i := fun hbi => hi (by rw [hbi]; exact List.mem_cons_self _ _)
    have hrest : i ∉ rest := fun hm => hi (List.mem_cons_of_mem _ hm)
    show (release_all (h.set b Block.released) rest)[i]? = h[i]?
    rw [ih _ i hrest, List.getElem?_set_ne hne]

theorem free_tokens_loop_eq (a : Nat) :
    ∀ (ids : List Nat) (h : List Block) (pre rest : List (Option Nat)) (fuel : Nat),
      h[a]? = some (Block.cells (pre ++ (ids.map some ++ none :: rest))) →
      ids.Nodup → a ∉ ids →
      (∀ i ∈ ids, ∃ blk, h[i]? = some blk ∧ blk ≠ Block.released) →
      ids.length < fuel →
      free_tokens_loop a fuel pre.length h = Run.done (release_all h ids) := by
  intro ids
  induction ids with
  | nil =>
    intro h pre rest fuel ha _ _ _ hf
    cases fuel with
    | zero => omega
    | succ fuel =>
      simp only [free_tokens_loop]
      rw [load_cell_at h a pre rest none (by simpa using ha), run_bind_done]
      rfl
  | cons b ids ih =>
    intro h pre rest fuel ha hnd hna hlive hf
    cases fuel with
    | zero => omega
    | succ fuel =>
      have hf' : ids.length < fuel := by simpa using hf
      obtain ⟨blk, hblk, hl⟩ := hlive b (List.mem_cons_self _ _)
      have hab : b ≠ a := fun hba => hna (by rw [← hba]; exact List.mem_cons_self _ _)
      have hnd' := List.nodup_cons.1 hnd
      simp only [free_tokens_loop]
      rw [load_cell_at h a pre (ids.map some ++ none :: rest) (some b)
        (by simpa using ha), run_bind_done]
      simp only
      rw [free_live h b blk hblk hl, run_bind_done]
      have := ih (h.set b Block.released) (pre ++ [some b]) rest fuel
        (by
          rw [List.getElem?_set_ne hab, ha]
          simp)
        hnd'.2 (fun hm => hna (List.mem_cons_of_mem _ hm))
        (by
          intro i hi
          have hib : b ≠ i := fun hbi => hnd'.1 (by rw [hbi]; exact hi)
          rw [List.getElem?_set_ne hib]
          exact hlive i (List.mem_cons_of_mem _ hi))
        hf'
      rw [List.length_append, List.length_singleton] at this
      rw [this]
      rfl

/-- C16 (as amended).  `free_tokens(NULL)` does nothing.  One call of
`free_tokens` on a token sequence ends without undefined access: it
releases the blocks of the tokens and the array, each once, and touches no
other block.  A second call on the released sequence is undefined: it
reads the released array. -/
theorem free_tokens_once (h : List Block) (a : Nat) (ids : List Nat)
    (rest : List (Option Nat)) (hw : token_array h a ids rest) :
    free_tokens h none = Run.done h ∧
      free_tokens h (some a) = Run.done ((release_all h ids).set a Block.released) ∧
      (∀ i, i ∈ a :: ids →
        ((release_all h ids).set a Block.released)[i]? = some Block.released) ∧
      (∀ i, i ∉ a :: ids → ((release_all h ids).set a Block.released)[i]? = h[i]?) ∧
      free_tokens ((release_all h ids).set a Block.released) (some a) = Run.fault := by
  obtain ⟨ha, hnd, hna, hlive⟩ := hw
  have hloop := free_tokens_loop_eq a ids h [] rest (cells_length h a + 1)
    (by simpa using ha) hnd hna hlive
    (by
      unfold cells_length
      rw [ha]
      simp only [List.length_append, List.length_map, List.length_cons]
      omega)
  have hla : ∀ hh : List Block, hh.length = h.length → a < hh.length := by
    intro hh hlen
    by_contra hge
    rw [List.getElem?_eq_none (by omega)] at ha
    cases ha
  have hlen : ∀ (l : List Nat) (hh : List Block), (release_all hh l).length = hh.length := by
    intro l
    induction l with
    | nil => intro hh; rfl
    | cons b l ih =>
      intro hh
      show (release_all (hh.set b Block.released) l).length = hh.length
      rw [ih, List.length_set]
  have ha1 : (release_all h ids)[a]? = some (Block.cells (ids.map some ++ none :: rest)) := by
    rw [release_all_getElem? ids h a hna]; exact ha
  have hrel : ∀ (l : List Nat) (hh : List Block) (i : Nat), i ∈ l → i < hh.length →
      (release_all hh l)[i]? = some Block.released := by
    intro l
    induction l with
    | nil => intro hh i hi; cases hi
    | cons b l ih =>
      intro hh i hi hlt
      show (release_all (hh.set b Block.released) l)[i]? = some Block.released
      by_cases hil : i ∈ l
      · exact ih _ i hil (by rw [List.length_set]; exact hlt)
      · have hib : i = b := by
          rcases List.mem_cons.1 hi with h1 | h1
          · exact h1
          · exact absurd h1 hil
        rw [release_all_getElem? l _ i hil, hib, List.getElem?_set_self (by rw [← hib]; exact hlt)]
  refine ⟨rfl, ?_, ?_, ?_, ?_⟩
  · show (free_tokens_loop a (cells_length h a + 1) 0 h).bind (fun h1 => free h1 a) = _
    have h0 : ([] : List (Option Nat)).length = 0 := rfl
    rw [h0] at hloop
    rw [hloop, run_bind_done, free_live _ a _ ha1 (by intro hc; cases hc)]
  · intro i hi
    by_cases hia : i = a
    · rw [hia, List.getElem?_set_self (hla _ (hlen ids h))]
    · have hii : i ∈ ids := by
        rcases List.mem_cons.1 hi with h1 | h1
        · exact absurd h1 hia
        · exact h1
      rw [List.getElem?_set_ne (fun hc => hia hc.symm)]
      obtain ⟨blk, hblk, _⟩ := hlive i hii
      have hlt : i < h.length := by
        by_contra hge
        rw [List.getElem?_eq_none (by omega)] at hblk
        cases hblk
      exact hrel ids h i hii hlt
  · intro i hi
    have hia : a ≠ i := fun hc => hi (by rw [hc]; exact List.mem_cons_self _ _)
    have hii : i ∉ ids := fun hc => hi (List.mem_cons_of_mem _ hc)
    rw [List.getElem?_set_ne hia, release_all_getElem? ids h i hii]
  · have hget : ((release_all h ids).set a Block.released)[a]? = some Block.released :=
      List.getElem?_set_self (hla _ (hlen ids h))
    show (free_tokens_loop a (cells_length ((release_all h ids).set a Block.released) a + 1) 0
      ((release_all h ids).set a Block.released)).bind (fun h1 => free h1 a) = _
    have hc : cells_length ((release_all h ids).set a Block.released) a = 0 := by
      unfold cells_length; rw [hget]
    rw [hc]
    simp only [free_tokens_loop, load_cell, hget, Run.bind]

theorem place_blocks (alloc : Nat → Bool) (s : List Nat) :
    ∀ (tr : List (Option Nat × Option Nat × Option Nat)) (nxt idx : Nat)
      (r : List (Option Nat) × List Block),
      place alloc s nxt idx tr = Run.done r →
      r.1.filterMap id = List.range' nxt r.2.length ∧
        ∀ blk ∈ r.2, ∃ d, blk = Block.bytes d := by
  intro tr
  induction tr with
  | nil =>
    intro nxt idx r h
    simp only [place] at h
    injection h with h
    rw [← h]
    exact ⟨rfl, fun blk hblk => by cases hblk⟩
  | cons st rest ih =>
    intro nxt idx r h
    simp only [place] at h
    split at h
    · cases h
    · split at h
      · rename_i t _
        cases hp : place alloc s (nxt + 1) (idx + 1) rest with
        | done r' =>
          rw [hp, run_bind_done] at h
          injection h with h
          obtain ⟨h1, h2⟩ := ih _ _ _ hp
          rw [← h]
          refine ⟨?_, ?_⟩
          · simp only [List.length_cons, List.range'_succ, List.filterMap_cons, id, h1]
          · intro blk hblk
            rcases List.mem_cons.1 hblk with hb | hb
            · exact ⟨_, hb⟩
            · exact h2 blk hb
        | fault => rw [hp] at h; cases h
        | timeout => rw [hp] at h; cases h
      · cases hp : place alloc s nxt (idx + 1) rest with
        | done r' =>
          rw [hp, run_bind_done] at h
          injection h with h
          obtain ⟨h1, h2⟩ := ih _ _ _ hp
          rw [← h]
          refine ⟨?_, h2⟩
          simp only [List.filterMap_cons, id, h1]
        | fault => rw [hp] at h; cases h
        | timeout => rw [hp] at h; cases h

theorem split_at_sentinel (c : List (Option Nat)) :
    ∃ ids rest tl, c ++ [none] = ids.map some ++ none :: rest ∧
      c.filterMap id = ids ++ tl := by
  induction c with
  | nil => exact ⟨[], [], [], rfl, rfl⟩
  | cons x c ih =>
    obtain ⟨ids, rest, tl, h1, h2⟩ := ih
    cases x with
    | none => exact ⟨[], c ++ [none], c.filterMap id, by simp, by simp⟩
    | some v =>
      refine ⟨v :: ids, rest, tl, ?_, ?_⟩
      · rw [List.cons_append, h1]; rfl
      · simp only [List.filterMap_cons, id, h2, List.cons_append]

/-- What `tokenize` returns on the heap is a token sequence. -/
theorem tokenize_st_token_array (alloc : Nat → Bool) (h : List Block) (b : Nat)
    (hb : b < h.length) (h1 : List Block) (a : Nat)
    (hdone : tokenize_st alloc h (some b) = Run.done (h1, some a)) :
    ∃ ids rest, token_array h1 a ids rest := by
  rw [tokenize_st_eq alloc h b hb] at hdone
  split at hdone
  · cases hp : place alloc (string_of h b) (h.length + 1) 0
        (tokenize_trace (string_of h b) (runs (string_of h b)).length (some 0)) with
    | done r =>
      rw [hp, run_bind_done] at hdone
      injection hdone with hdone
      injection hdone with hh ha
      injection ha with ha
      obtain ⟨hids, hbytes⟩ := place_blocks alloc _ _ _ _ _ hp
      obtain ⟨ids, rest, tl, hc, hf⟩ := split_at_sentinel r.1
      have hmem : ∀ i ∈ ids, h.length + 1 ≤ i ∧ i < h.length + 1 + r.2.length := by
        intro i hi
        have : i ∈ List.range' (h.length + 1) r.2.length := by
          rw [← hids, hf]; exact List.mem_append_left _ hi
        simpa using this
      refine ⟨ids, rest, ?_, ?_, ?_, ?_⟩
      · rw [← hh, ← ha, getElem?_append_cons_length, hc]
      · have : (ids ++ tl).Nodup := by
          rw [← hf, hids]; exact List.nodup_range' _ _
        exact List.Nodup.of_append_left this
      · intro hai
        have := (hmem a hai).1
        omega
      · intro i hi
        obtain ⟨hlo, hhi⟩ := hmem i hi
        have hidx : i - (h.length + 1) < r.2.length := by omega
        have hget : h1[i]? = some (r.2.get ⟨i - (h.length + 1), hidx⟩) := by
          have happ : h ++ Block.cells (r.1 ++ [none]) :: r.2
              = (h ++ [Block.cells (r.1 ++ [none])]) ++ r.2 := by simp
          rw [← hh, happ, List.getElem?_append_right (by simp; omega)]
          simp only [List.length_append, List.length_singleton]
          rw [List.getElem?_eq_getElem hidx]
          rfl
        obtain ⟨d, hd⟩ := hbytes _ (List.get_mem r.2 _ hidx)
        exact ⟨_, hget, by rw [hd]; intro hc; cases hc⟩
    | fault => rw [hp] at hdone; cases hdone
    | timeout => rw [hp] at hdone; cases hdone
  · injection hdone with hdone
    injection hdone with _ ha
    cases ha

/-- C16 (fails on the code as stated).  After `tokenize` of `"hi yo"` and one
`free_tokens`, which releases the array and the two tokens, a second
`free_tokens` with the same pointer reads the released array: the run is
undefined. -/
theorem second_free_tokens_undefined :
    tokenize_st alloc_ok sample_heap (some 0)
        = Run.done ([Block.bytes [104, 105, 32, 121, 111, 0],
            Block.cells [some 2, some 3, none], Block.bytes [104, 105, 0],
            Block.bytes [121, 111, 0]], some 1) ∧
      free_tokens [Block.bytes [104, 105, 32, 121, 111, 0],
            Block.cells [some 2, some 3, none], Block.bytes [104, 105, 0],
            Block.bytes [121, 111, 0]] (some 1)
        = Run.done [Block.bytes [104, 105, 32, 121, 111, 0],
            Block.released, Block.released, Block.released] ∧
      free_tokens [Block.bytes [104, 105, 32, 121, 111, 0],
            Block.released, Block.released, Block.released] (some 1) = Run.fault := by
  decide

theorem free_tokens_once_witness :
    token_array [Block.bytes [104, 105, 32, 121, 111, 0],
        Block.cells [some 2, some 3, none], Block.bytes [104, 105, 0],
        Block.bytes [121, 111, 0]] 1 [2, 3] [] ∧
      free_tokens [Block.bytes [104, 105, 32, 121, 111, 0],
          Block.cells [some 2, some 3, none], Block.bytes [104, 105, 0],
          Block.bytes [121, 111, 0]] (some 1)
        = Run.done ((release_all [Block.bytes [104, 105, 32, 121, 111, 0],
            Block.cells [some 2, some 3, none], Block.bytes [104, 105, 0],
            Block.bytes [121, 111, 0]] [2, 3]).set 1 Block.released) ∧
      (release_all [Block.bytes [104, 105, 32, 121, 111, 0],
          Block.cells [some 2, some 3, none], Block.bytes [104, 105, 0],
          Block.bytes [121, 111, 0]] [2, 3]).set 1 Block.released
        = [Block.bytes [104, 105, 32, 121, 111, 0],
            Block.released, Block.released, Block.released] :=
  have hw : token_array [Block.bytes [104, 105, 32, 121, 111, 0],
      Block.cells [some 2, some 3, none], Block.bytes [104, 105, 0],
      Block.bytes [121, 111, 0]] 1 [2, 3] [] :=
    ⟨by decide, by decide, by decide, fun i hi => by
      rcases List.mem_cons.1 hi with h2 | hi
      · exact ⟨Block.bytes [104, 105, 0], by rw [h2]; decide, by decide⟩
      · rcases List.mem_cons.1 hi with h3 | hi
        · exact ⟨Block.bytes [121, 111, 0], by rw [h3]; decide, by decide⟩
        · cases hi⟩
  ⟨hw, (free_tokens_once _ 1 [2, 3] [] hw).2.1, by decide⟩

/-! ## The heap run against the run on lists -/

theorem takeWhile_terminated (t : List Nat) (h0 : ∀ c ∈ t, c ≠ 0) :
    (t ++ [0]).takeWhile (fun x => x != 0) = t := by
  induction t with
  | nil => rfl
  | cons c cs ih =>
    have hc : c ≠ 0 := h0 c (List.mem_cons_self _ _)
    rw [List.cons_append, List.takeWhile_cons_of_pos (by simpa using hc),
      ih (fun x hx => h0 x (List.mem_cons_of_mem _ hx))]

theorem string_of_at (Hpre T : List Block) (d : List Nat) :
    string_of (Hpre ++ Block.bytes d :: T) Hpre.length = d := by
  unfold string_of
  rw [getElem?_append_cons_length]

theorem place_read_back (alloc : Nat → Bool) (s : List Nat) :
    ∀ (tr : List (Option Nat × Option Nat × Option Nat)) (nxt idx : Nat)
      (r : List (Option Nat) × List Block) (Hpre : List Block),
      place alloc s nxt idx tr = Run.done r →
      (∀ t, some t ∈ List.zipWith
          (fun st i => copy_str (alloc (i + 1)) s st.2.1 (toShort (ptr_diff st.2.2 st.2.1)))
          tr (List.range' idx tr.length) → ∀ c ∈ t, c ≠ 0) →
      Hpre.length = nxt →
      ((r.1 ++ [none]).takeWhile Option.isSome).map
          (fun (cell : Option Nat) =>
            (string_of (Hpre ++ r.2) (cell.getD 0)).takeWhile (fun x => x != 0))
        = token_seq (List.zipWith
            (fun st i => copy_str (alloc (i + 1)) s st.2.1 (toShort (ptr_diff st.2.2 st.2.1)))
            tr (List.range' idx tr.length) ++ [none]) := by
  intro tr
  induction tr with
  | nil =>
    intro nxt idx r Hpre h _ _
    simp only [place] at h
    injection h with h
    rw [← h]
    rfl
  | cons st rest ih =>
    intro nxt idx r Hpre h hz hlen
    simp only [place] at h
    simp only [List.length_cons, List.range'_succ, List.zipWith_cons_cons] at hz ⊢
    split at h
    · cases h
    · split at h
      · rename_i t heq
        cases hp : place alloc s (nxt + 1) (idx + 1) rest with
        | done r' =>
          rw [hp, run_bind_done] at h
          injection h with h
          have hih := ih (nxt + 1) (idx + 1) r' (Hpre ++ [Block.bytes (t ++ [0])]) hp
            (fun t' ht' => hz t' (List.mem_cons_of_mem _ ht'))
            (by rw [List.length_append, List.length_singleton, hlen])
          rw [List.append_assoc, List.singleton_append] at hih
          have ht0 : ∀ c ∈ t, c ≠ 0 := hz t (by rw [heq]; exact List.mem_cons_self _ _)
          rw [← h, heq]
          simp only [List.cons_append, token_seq]
          rw [List.takeWhile_cons_of_pos rfl, List.map_cons, hih]
          simp only [Option.getD_some]
          rw [← hlen, string_of_at, takeWhile_terminated t ht0]
          rfl
        | fault => rw [hp] at h; cases h
        | timeout => rw [hp] at h; cases h
      · rename_i heq
        cases hp : place alloc s nxt (idx + 1) rest with
        | done r' =>
          rw [hp, run_bind_done] at h
          injection h with h
          rw [← h, heq]
          rfl
        | fault => rw [hp] at h; cases h
        | timeout => rw [hp] at h; cases h

/-- The heap run agrees with the run on lists: when `tokenize` returns an
array on the heap, the strings that the array gives access to are the
strings of the array that `tokenize` returns on the list of the bytes. -/
theorem tokenize_st_refines (alloc : Nat → Bool) (h : List Block) (b : Nat) (s : List Nat)
    (hb : h[b]? = some (Block.bytes s)) (h1 : List Block) (a : Nat)
    (hdone : tokenize_st alloc h (some b) = Run.done (h1, some a)) :
    ∃ arr, tokenize alloc (some s) = some (some arr) ∧ read_tokens h1 a = token_seq arr := by
  have hlt : b < h.length := by
    by_contra hge
    rw [List.getElem?_eq_none (by omega)] at hb
    cases hb
  have hs : string_of h b = s := by
    unfold string_of; rw [hb]
  rw [tokenize_st_eq alloc h b hlt, hs] at hdone
  have hloop : tokenize_loop alloc s (runs s).length 0 (some 0) = entries alloc 0 (runs s) := by
    have := tokenize_loop_eq alloc s (runs s).length 0 0 (Nat.zero_le _) (by simp)
    simpa using this
  split at hdone
  · rename_i ha
    cases hp : place alloc s (h.length + 1) 0 (tokenize_trace s (runs s).length (some 0)) with
    | done r =>
      rw [hp, run_bind_done] at hdone
      injection hdone with hdone
      injection hdone with hh haa
      injection haa with haa
      refine ⟨entries alloc 0 (runs s) ++ [none], ?_, ?_⟩
      · rw [tokenize_eq, if_pos ha]
      · have hz : ∀ t, some t ∈ List.zipWith
            (fun st i => copy_str (alloc (i + 1)) s st.2.1 (toShort (ptr_diff st.2.2 st.2.1)))
            (tokenize_trace s (runs s).length (some 0))
            (List.range' 0 (tokenize_trace s (runs s).length (some 0)).length) →
            ∀ c ∈ t, c ≠ 0 := by
          intro t ht c hc
          rw [tokenize_trace_length, ← tokenize_loop_eq_trace, hloop] at ht
          obtain ⟨run, hrun, k, hk⟩ := mem_entries alloc (runs s) 0 t ht
          rw [hk] at hc
          have hw := scan_all_word s [] (by simp) run hrun c (List.mem_of_mem_take hc)
          exact ((word_cond_iff c).1 hw).2.2
        have hrb := place_read_back alloc s _ _ _ r (h ++ [Block.cells (r.1 ++ [none])]) hp hz
          (by rw [List.length_append, List.length_singleton])
        rw [tokenize_trace_length, ← tokenize_loop_eq_trace, hloop, List.append_assoc,
          List.singleton_append] at hrb
        unfold read_tokens
        rw [← hh, ← haa, getElem?_append_cons_length]
        exact hrb
    | fault => rw [hp] at hdone; cases hdone
    | timeout => rw [hp] at hdone; cases hdone
  · injection hdone with hdone
    injection hdone with _ haa
    cases haa

/-! ## Concatenation and the strings that a reader sees -/

theorem tokenize_replicate_null_rest (n : Nat) (hk : toShort (n : Int) < 0)
    (rest : List Nat) (rs : List (List Nat))
    (hrest : scan rest (List.replicate n 97) = List.replicate n 97 :: rs) :
    tokenize alloc_ok (some (List.replicate n 97 ++ rest))
      = some (some (none :: entries alloc_ok 1 rs ++ [none])) := by
  rw [tokenize_eq, runs_replicate, hrest]
  have hs := store_replicate n (toShort (n : Int)) rfl
  rw [if_neg (by omega)] at hs
  simp only [entries, alloc_ok, if_true, hs, List.cons_append]

/-- C20 (fails on the code).  For `s` of 32768 letters `a`, the delimiter
space and `t = "b"`: `tokenize(s)` holds no string before its first `NULL`
(the length 32768 is `-32768` as a `short` and the `malloc` fails),
`tokenize(t)` holds `b`, so `tokenize(s) ++ tokenize(t)` is `[b]`; but the
array for `s ++ [d] ++ t` is `NULL`, `b`, `NULL`, so `tokenize(s ++ [d] ++ t)`
holds no string before its first `NULL`, while `count_tokens` gives 2. -/
theorem concat_hides_tokens_behind_null :
    tokenize alloc_ok (some (List.replicate 32768 97)) = some (some [none, none]) ∧
      tokenize alloc_ok (some [98]) = some (some [some [98], none]) ∧
      tokenize alloc_ok (some (List.replicate 32768 97 ++ [32] ++ [98]))
        = some (some [none, some [98], none]) ∧
      token_seq [none, some [98], none] = [] ∧
      token_seq [none, none] ++ token_seq [some [98], none] = [[98]] ∧
      count_tokens (some (List.replicate 32768 97 ++ [32] ++ [98])) = some 2 := by
  have hrest : scan [32, 98] (List.replicate 32768 97)
      = List.replicate 32768 97 :: [[98]] := by
    rw [scan_delim_cons 32 [98] _ (Or.inl rfl), flush_replicate 32768 (by decide)]
    rfl
  have happ : List.replicate 32768 97 ++ [32] ++ [98]
      = List.replicate 32768 97 ++ [32, 98] := by
    rw [List.append_assoc]; rfl
  refine ⟨tokenize_replicate_null 32768 (by decide) (by decide), by decide, ?_, rfl, rfl, ?_⟩
  · rw [happ]
    exact tokenize_replicate_null_rest 32768 (by decide) [32, 98] [[98]] hrest
  · rw [happ]
    unfold count_tokens
    rw [count_words_eq, runs_replicate, hrest]
    rfl

/-! ## The 32-bit counter -/

theorem toInt32_succ (c : Int) : toInt32 (toInt32 c + 1) = toInt32 (c + 1) := by
  unfold toInt32
  omega

theorem toInt32_of_small (n : Nat) (h : n < 2147483648) : toInt32 (n : Int) = (n : Int) := by
  unfold toInt32
  omega

theorem count_words_loop_int_eq (s : List Nat) :
    ∀ (fuel : Nat) (p : Option Nat) (c : Int),
      count_words_loop_int s fuel p (toInt32 c)
        = (count_words_loop s fuel p c).map toInt32 := by
  intro fuel
  induction fuel with
  | zero => intro p c; rfl
  | succ fuel ih =>
    intro p c
    simp only [count_words_loop_int, count_words_loop]
    cases find_word_start s p with
    | none => rfl
    | some start =>
      simp only
      rw [toInt32_succ, ih]

/-- The `int` that `count_words` returns is the number of runs reduced to 32
bits. -/
theorem count_words_int_eq (s : List Nat) :
    count_words_int (some s) = some (toInt32 ((runs s).length : Int)) := by
  have h := count_words_loop_int_eq s (s.length + 1) (some 0) 0
  have h0 : toInt32 0 = 0 := by decide
  rw [h0] at h
  show count_words_loop_int s (s.length + 1) (some 0) 0 = _
  rw [h]
  have := count_words_eq s
  unfold count_words at this
  simp only at this
  rw [this]
  rfl

theorem words_succ (n : Nat) : words (n + 1) = 97 :: 32 :: words n := rfl

theorem words_ne_zero (n : Nat) : ∀ c ∈ words n, c ≠ 0 := by
  induction n with
  | zero => intro c hc; cases hc
  | succ n ih =>
    intro c hc
    rw [words_succ] at hc
    rcases List.mem_cons.1 hc with h | hc
    · omega
    · rcases List.mem_cons.1 hc with h | hc
      · omega
      · exact ih c hc

theorem runs_words_length (n : Nat) : (runs (words n)).length = n := by
  induction n with
  | zero => rfl
  | succ n ih =>
    have h : runs (words (n + 1)) = [97] :: runs (words n) := by
      unfold runs
      rw [words_succ, scan_cons, if_neg (by decide), if_neg (by decide),
        scan_delim_cons 32 _ _ (Or.inl rfl)]
      rfl
    rw [h, List.length_cons, ih]

/-- C2 (fails on the code as stated).  The string of `2^31` words `a ` has no
`NUL` inside and `2^31` runs, which is no value of a 32-bit `int`: the
counter of `count_tokens` wraps and the result is `-2^31`, below 0. -/
theorem count_tokens_wraps :
    (∀ c ∈ words 2147483648, c ≠ 0) ∧
      run_starts (words 2147483648) = 2147483648 ∧
      count_tokens_int (some (words 2147483648)) = some (-2147483648) := by
  refine ⟨words_ne_zero 2147483648, ?_, ?_⟩
  · rw [← runs_length (words 2147483648) (words_ne_zero 2147483648)]
    exact runs_words_length 2147483648
  · have h := count_words_int_eq (words 2147483648)
    rw [runs_words_length 2147483648] at h
    have hw : toInt32 ((2147483648 : Nat) : Int) = -2147483648 := by decide
    rw [hw] at h
    exact h

/-- C2 (as amended).  On a NUL-terminated string with fewer than `2^31` runs,
`count_tokens`, which is `count_words`, returns the number of positions
that start a run of non-delimiters (`run_starts`), and the result is not
negative. -/
theorem count_tokens_int_eq_run_starts (s : List Nat) (h : ∀ c ∈ s, c ≠ 0)
    (hb : run_starts s < 2147483648) :
    count_tokens_int (some s) = some (run_starts s : Int) ∧
      count_words_int (some s) = count_tokens_int (some s) ∧
      ∀ n, count_tokens_int (some s) = some n → 0 ≤ n := by
  have hc : count_tokens_int (some s) = some (run_starts s : Int) := by
    unfold count_tokens_int
    rw [count_words_int_eq, runs_length s h, toInt32_of_small _ hb]
  refine ⟨hc, rfl, ?_⟩
  intro n hn
  rw [hc] at hn
  injection hn with hn
  rw [← hn]
  exact Int.natCast_nonneg _

theorem count_tokens_int_eq_run_starts_witness :
    (∀ c ∈ [32, 32, 104, 105, 9, 9, 121, 111, 117, 32], c ≠ 0) ∧
      run_starts [32, 32, 104, 105, 9, 9, 121, 111, 117, 32] < 2147483648 ∧
      count_tokens_int (some [32, 32, 104, 105, 9, 9, 121, 111, 117, 32]) = some 2 ∧
      count_tokens_int (some [32, 32, 104, 105, 9, 9, 121, 111, 117, 32])
        = some (run_starts [32, 32, 104, 105, 9, 9, 121, 111, 117, 32] : Int) ∧
      count_words_int (some [32, 32, 104, 105, 9, 9, 121, 111, 117, 32])
        = count_tokens_int (some [32, 32, 104, 105, 9, 9, 121, 111, 117, 32]) ∧
      ∀ n, count_tokens_int (some [32, 32, 104, 105, 9, 9, 121, 111, 117, 32]) = some n →
        0 ≤ n :=
  ⟨by decide, by decide, by decide,
    count_tokens_int_eq_run_starts [32, 32, 104, 105, 9, 9, 121, 111, 117, 32]
      (by decide) (by decide)⟩

/-! ## A token of 16-bit length -1 -/

theorem takeWhile_append_all (f : Nat → Bool) (pre rest : List Nat)
    (h : ∀ c ∈ pre, f c = true) :
    (pre ++ rest).takeWhile f = pre ++ rest.takeWhile f := by
  induction pre with
  | nil => rfl
  | cons c cs ih =>
    rw [List.cons_append, List.takeWhile_cons_of_pos (h c (List.mem_cons_self _ _)),
      ih (fun x hx => h x (List.mem_cons_of_mem _ hx)), List.cons_append]

theorem takeWhile_head_false (f : Nat → Bool) (l : List Nat) (h : f (l.headD 0) = false) :
    l.takeWhile f = [] := by
  cases l with
  | nil => rfl
  | cons c cs =>
    have hc : ¬ f c = true := by
      rw [List.headD_cons] at h
      rw [h]; decide
    exact List.takeWhile_cons_of_neg hc

/-- The first token of a string made of delimiters, `n` letters `a` and a
rest that starts with no token character. -/
theorem first_token_replicate (pre rest : List Nat) (n : Nat) (hn : 0 < n)
    (hpre : ∀ c ∈ pre, skip_cond c = true) (hrest : word_cond (rest.headD 0) = false) :
    find_word_start (pre ++ (List.replicate n 97 ++ rest)) (some 0) = some pre.length ∧
      find_word_terminator (pre ++ (List.replicate n 97 ++ rest)) (some pre.length)
        = some (pre.length + n) := by
  obtain ⟨m, rfl⟩ : ∃ m, n = m + 1 := ⟨n - 1, by omega⟩
  have hdrop : (pre ++ (List.replicate (m + 1) 97 ++ rest)).drop pre.length
      = List.replicate (m + 1) 97 ++ rest := List.drop_left _ _
  refine ⟨?_, ?_⟩
  · have hq : find_word_start_loop ((pre ++ (List.replicate (m + 1) 97 ++ rest)).drop 0) 0
        = pre.length := by
      rw [List.drop_zero, find_word_start_loop_eq, takeWhile_append_all _ _ _ hpre,
        List.replicate_succ, List.cons_append,
        List.takeWhile_cons_of_neg (by decide), List.append_nil, Nat.zero_add]
    simp only [find_word_start]
    rw [hq, getD_eq_headD_drop, hdrop, List.replicate_succ, List.cons_append, List.headD_cons]
    rfl
  · simp only [find_word_terminator]
    rw [hdrop, find_word_terminator_loop_eq,
      takeWhile_append_all _ _ _ (fun c hc => by rw [List.eq_of_mem_replicate hc]; decide),
      takeWhile_head_false _ _ hrest, List.append_nil, List.length_replicate]

/-- A run of `tokenize` whose first token is given the 16-bit length `-1`
makes the store `out[-1]` when the array and the block of the token are
granted. -/
theorem tokenize_st_fault (alloc : Nat → Bool) (h : List Block) (b : Nat) (s : List Nat)
    (q e : Nat) (hb : h[b]? = some (Block.bytes s))
    (hq : find_word_start s (some 0) = some q)
    (he : find_word_terminator s (some q) = some e)
    (hlen : toShort ((e : Int) - (q : Int)) = -1)
    (h0 : alloc 0 = true) (h1 : alloc 1 = true) :
    tokenize_st alloc h (some b) = Run.fault := by
  have hlt : b < h.length := by
    by_contra hge
    rw [List.getElem?_eq_none (by omega)] at hb
    cases hb
  have hs : string_of h b = s := by
    unfold string_of; rw [hb]
  rw [tokenize_st_eq alloc h b hlt, hs, if_pos h0]
  obtain ⟨k, hk⟩ : ∃ k, (runs s).length = k + 1 := by
    rcases scan_step s 0 (Nat.zero_le _) with ⟨hnone, _⟩ | ⟨q', e', _, _, _, _, _, hr⟩
    · rw [hq] at hnone; cases hnone
    · rw [List.drop_zero] at hr
      rw [hr]
      exact ⟨_, rfl⟩
  rw [hk]
  simp only [tokenize_trace, place, hq, he, ptr_diff, Nat.zero_add, h1, hlen]
  rfl

/-- A string of delimiters, `n` letters `a` with `(short)n = -1` and a rest
that starts with no token character: `tokenize` makes the store `out[-1]`. -/
theorem tokenize_st_fault_replicate (h : List Block) (b : Nat) (pre rest : List Nat) (n : Nat)
    (hb : h[b]? = some (Block.bytes (pre ++ (List.replicate n 97 ++ rest))))
    (hpre : ∀ c ∈ pre, skip_cond c = true) (hrest : word_cond (rest.headD 0) = false)
    (hn : toShort (n : Int) = -1) :
    tokenize_st alloc_ok h (some b) = Run.fault := by
  have hpos : 0 < n := by
    rcases Nat.eq_zero_or_pos n with h0 | h0
    · rw [h0] at hn; exact absurd hn (by decide)
    · exact h0
  obtain ⟨hq, he⟩ := first_token_replicate pre rest n hpos hpre hrest
  refine tokenize_st_fault alloc_ok h b _ pre.length (pre.length + n) hb hq he ?_ rfl rfl
  have : ((pre.length + n : Nat) : Int) - (pre.length : Int) = (n : Int) := by
    push_cast; omega
  rw [this]
  exact hn

theorem copy_str_st_minus_one (h : List Block) (inb : Nat) (inStr : Option Nat) :
    copy_str_st true h inb inStr (-1) = Run.fault := rfl

/-- C5 (fails on the code).  A string of 65535 letters `a` is one token.  Its
length `end - start = 65535` is `-1` as a `short`, and a call of `copy_str`
with `len = -1` whose `malloc(0)` is granted copies nothing, stores
`out[-1]` outside the block and returns the block unwritten: the run of
`tokenize` on this string is undefined, and no store of the program keeps
a space or a tab out of the string returned. -/
theorem token_of_length_65535_is_not_written :
    toShort 65535 = -1 ∧
      count_tokens (some (List.replicate 65535 97)) = some 1 ∧
      (∀ (h : List Block) (inb : Nat) (inStr : Option Nat),
        copy_str_st true h inb inStr (-1) = Run.fault) ∧
      tokenize_st alloc_ok [Block.bytes (List.replicate 65535 97 ++ [0])] (some 0)
        = Run.fault :=
  ⟨by decide, count_tokens_replicate 65535 (by decide), copy_str_st_minus_one,
    tokenize_st_fault_replicate _ 0 [] [0] 65535 rfl (fun c hc => by cases hc) rfl
      (by decide)⟩

/-- C7 (fails on the code).  For `s` of 65535 letters `a`, neither
`tokenize(s)` nor `tokenize` of `s` with a space put in front has a defined
result: in both runs the token gets the length `(short)65535 = -1`,
`copy_str` stores `out[-1]` and returns a block that it has not written, so
the two arrays address strings that no store makes equal. -/
theorem space_before_65535_letters :
    toShort 65535 = -1 ∧
      tokenize_st alloc_ok [Block.bytes (List.replicate 65535 97 ++ [0])] (some 0)
        = Run.fault ∧
      tokenize_st alloc_ok [Block.bytes (32 :: (List.replicate 65535 97 ++ [0]))] (some 0)
        = Run.fault :=
  ⟨by decide,
    tokenize_st_fault_replicate _ 0 [] [0] 65535 rfl (fun c hc => by cases hc) rfl
      (by decide),
    tokenize_st_fault_replicate _ 0 [32] [0] 65535 rfl (by decide) rfl (by decide)⟩

/-- C8 (fails on the code).  For 65535 letters `a`, a space and `b`, neither
`tokenize` of the string nor `tokenize` of the string with a tab for the
space has a defined result: in both runs the first token gets the length
`(short)65535 = -1`, `copy_str` stores `out[-1]` and returns a block that it
has not written, so the two arrays address strings that no store makes
equal. -/
theorem tab_for_space_after_65535_letters :
    toShort 65535 = -1 ∧
      tokenize_st alloc_ok [Block.bytes (List.replicate 65535 97 ++ [32, 98, 0])] (some 0)
        = Run.fault ∧
      tokenize_st alloc_ok [Block.bytes (List.replicate 65535 97 ++ [9, 98, 0])] (some 0)
        = Run.fault :=
  ⟨by decide,
    tokenize_st_fault_replicate _ 0 [] [32, 98, 0] 65535 rfl (fun c hc => by cases hc) rfl
      (by decide),
    tokenize_st_fault_replicate _ 0 [] [9, 98, 0] 65535 rfl (fun c hc => by cases hc) rfl
      (by decide)⟩

end Tokenizer
